import Mathlib

/-!
# FgoFArcExtractor

A shallow embedding of `EntryPoint.cpp` and of the parts of `Utilities.cpp` it
calls, followed by theorems about the embedded functions.

Conventions of the embedding

* A byte (`u8`) is a `Fin 256`; a `u32` is a natural number below `2 ^ 32`, and
  every `u32` operation that can wrap reduces modulo `2 ^ 32` explicitly.
* The file buffer is a `List u8`.  The source reads it through raw pointers and
  never compares a pointer with the end of the buffer, so a read is modelled as
  a function into `Except Fault`: `Except.error` means that the C++ execution
  reads outside the allocation (or through a null pointer), where the language
  leaves the behaviour undefined.  `Except.error` is therefore *not* an error
  the program reports: the program has no such path.
* The host is little-endian (the program targets Windows), so
  `*reinterpret_cast<const u32*>(p)` assembles the four bytes at `p` with the
  first byte least significant.
* The libraries loaded at run time (zlib, zstd, bcrypt) are parameters.
* Allocation (`make_unique`, `vector::reserve`) is assumed to succeed.
-/

set_option autoImplicit false

/-- An unsigned 8-bit value. -/
abbrev u8 := Fin 256

/-- The two ways in which an execution leaves defined behaviour. -/
inductive Fault where
  | nullDereference
  | outOfBounds
deriving DecidableEq, Repr

/-- The four bytes at address `p`, read as a host (little-endian) `u32`:
`*reinterpret_cast<const u32*>(p)`. -/
def loadU32 (mem : List u8) (p : Nat) : Except Fault Nat :=
  match mem.drop p with
  | b0 :: b1 :: b2 :: b3 :: _ =>
    .ok (b0.val + 256 * b1.val + 65536 * b2.val + 16777216 * b3.val)
  | _ => .error .outOfBounds

/-- The `n` bytes at address `p`, as `memcpy` reads them. -/
def loadBytes (mem : List u8) (p n : Nat) : Except Fault (List u8) :=
  if p + n ≤ mem.length then .ok ((mem.drop p).take n) else .error .outOfBounds

/-- The bytes from address `p` up to, not including, the next zero byte:
`std::string_view(reinterpret_cast<const char*>(p))`. -/
def loadCString (mem : List u8) (p : Nat) : Except Fault (List u8) :=
  let name := (mem.drop p).takeWhile (fun b => b != 0)
  if name.length < (mem.drop p).length then .ok name else .error .outOfBounds

/-- Storing `src` at the start of the region whose content is `dst`; a store
never goes past the end of the region. -/
def storeBytes (dst src : List u8) : List u8 :=
  src.take dst.length ++ dst.drop src.length

namespace PeepoHappy

namespace Crypto

/-- Modelled from the spec: `Aes128KeySize` is declared in `Utilities.h`, which
is not among the sources; the spec gives a 128-bit key, that is 16 bytes. -/
def Aes128KeySize : Nat := 16

/-- Modelled from the spec: `Aes128IVSize` is declared in `Utilities.h`, which is
not among the sources; the spec gives a 16-byte IV. -/
def Aes128IVSize : Nat := 16

/-- The functions of `bcrypt.dll` that `BCryptAes128Cbc` calls.  Each status is
an `NTSTATUS`; `Decrypt` and `Encrypt` receive the key the key handle was made
from, the input bytes, the IV and the capacity of the output, and return the
status together with the bytes they stored at the output pointer. -/
structure BCrypt where
  OpenAlgorithmProvider : Int
  SetProperty : Int
  GetProperty : Int
  GenerateSymmetricKey : List u8 → Int
  Decrypt : List u8 → List u8 → List u8 → Nat → Int × List u8
  Encrypt : List u8 → List u8 → List u8 → Nat → Int × List u8

/-- The macro `NT_SUCCESS`. -/
def NT_SUCCESS (status : Int) : Bool := decide (0 ≤ status)

namespace Detail

inductive Operation where
  | Decrypt
  | Encrypt
deriving DecidableEq, Repr

/-- `Detail::BCryptAes128Cbc`.  `inData` holds the bytes of the buffer from the
input pointer on, `outData` the `outDataSize` bytes at the output pointer; the
result is the success flag and the new content of `outData`. -/
def BCryptAes128Cbc (api : BCrypt) (operation : Operation) (inData : List u8) (inDataSize : Nat)
    (outData : List u8) (outDataSize : Nat) (key iv : List u8) : Bool × List u8 :=
  if NT_SUCCESS api.OpenAlgorithmProvider then
    if NT_SUCCESS api.SetProperty then
      if NT_SUCCESS api.GetProperty then
        if NT_SUCCESS (api.GenerateSymmetricKey key) then
          let call := match operation with
            | .Decrypt => api.Decrypt
            | .Encrypt => api.Encrypt
          let r := call key (inData.take (inDataSize % 4294967296)) iv (outDataSize % 4294967296)
          (NT_SUCCESS r.1, storeBytes outData (r.2.take (outDataSize % 4294967296)))
        else (false, outData)
      else (false, outData)
    else (false, outData)
  else (false, outData)

end Detail

/-- `Crypto::DecryptAes128Cbc`, called with the same pointer for input and
output: `data` is the region of `inOutDataSize` bytes that is decrypted in
place. -/
def DecryptAes128Cbc (api : BCrypt) (data : List u8) (inOutDataSize : Nat) (key iv : List u8) :
    Bool × List u8 :=
  Detail.BCryptAes128Cbc api .Decrypt data inOutDataSize data inOutDataSize key iv

/-- The lambda `upperCaseHexCharToNibble`. -/
def upperCaseHexCharToNibble (c : Char) : Nat :=
  if '0' ≤ c ∧ c ≤ '9' then c.toNat - '0'.toNat
  else if 'A' ≤ c ∧ c ≤ 'F' then 10 + (c.toNat - 'A'.toNat)
  else 0

/-- Modelled from the spec: `ASCII::IsWhiteSpace` is declared in `Utilities.h`,
which is not among the sources, and the spec is silent about it; the usual
ASCII predicate (blank, tab, line feed, carriage return) stands for it.  The
only call site passes a literal of 32 upper-case hex digits. -/
def IsWhiteSpace (c : Char) : Bool := c == ' ' || c == '\t' || c == '\n' || c == '\r'

/-- Modelled from the spec: `ASCII::ToUpperCase` is declared in `Utilities.h`,
which is not among the sources, and the spec is silent about it; the usual
ASCII function (`a`..`z` to `A`..`Z`, the rest unchanged) stands for it. -/
def ToUpperCase (c : Char) : Char :=
  if 'a' ≤ c ∧ c ≤ 'z' then Char.ofNat (c.toNat - 32) else c

/-- The first loop of `ParseAes128KeyHexByteString`: the characters written to
`upperCaseHexChars`, of which there are at most 33. -/
def collectHexChars : List Char → Nat → List Char
  | [], _ => []
  | c :: rest, written =>
    if IsWhiteSpace c then collectHexChars rest written
    else
      let u := ToUpperCase c
      let h := if ('0' ≤ u ∧ u ≤ '9') ∨ ('A' ≤ u ∧ u ≤ 'F') then u else '0'
      if written + 1 ≥ 33 then [h] else h :: collectHexChars rest (written + 1)

/-- `Crypto::ParseAes128KeyHexByteString`. -/
def ParseAes128KeyHexByteString (hexByteString : String) : List u8 :=
  let upperCaseHexChars := collectHexChars hexByteString.toList 0
  (List.range Aes128KeySize).map fun byteIndex =>
    let hi := upperCaseHexCharToNibble (upperCaseHexChars.getD (byteIndex * 2 + 0) (Char.ofNat 0))
    let lo := upperCaseHexCharToNibble (upperCaseHexChars.getD (byteIndex * 2 + 1) (Char.ofNat 0))
    Fin.ofNat (hi * 16 % 256 ||| lo)

end Crypto

/-- `IO::ReadEntireFile` (the namespace is dropped here): `file` is the content of the file on disk (empty for
a file that cannot be opened).  The buffer is null exactly when the size is 0. -/
def ReadEntireFile (file : List u8) : Option (List u8) × Nat :=
  if 0 < file.length then (some file, file.length) else (none, 0)

/-- The functions of `zlib.dll` that `Compression::Decompress` calls.
`InflateInit2_` receives the window bits; `Inflate` receives the bytes of the
buffer from `next_in` on, `avail_in`, `avail_out` and the flush mode, and
returns its result code with the bytes it stored at `next_out`. -/
structure ZLIB where
  InflateInit2_ : Int → Int
  Inflate : List u8 → Nat → Nat → Int → Int × List u8
  InflateEnd : Int

/-- The function of `libzstd.dll` that `Compression::Decompress` calls:
`ZSTD_decompress` receives the capacity of the destination, the bytes of the
buffer from the source pointer on and the compressed size, and returns its
result code with the bytes it stored at the destination. -/
structure ZSTD where
  Decompress : Nat → List u8 → Nat → Nat × List u8

namespace Compression

inductive Method where
  | None
  | GZip
  | ZStd
deriving DecidableEq, Repr

/-- The zlib constant `Z_OK`. -/
def Z_OK : Int := 0

/-- The zlib constant `Z_FINISH`. -/
def Z_FINISH : Int := 4

/-- `Compression::Decompress`.  `inCompressedData` holds the bytes of the buffer
from the input pointer on and `outDecompressedData` the content of the output
buffer; the result is the returned flag and the new content of the output
buffer. -/
def Decompress (zlib : ZLIB) (zstd : ZSTD) (method : Method) (inCompressedData : List u8)
    (inDataSize : Nat) (outDecompressedData : List u8) (outDataSize : Nat) :
    Except Fault (Bool × List u8) :=
  match method with
  | .None =>
    if outDataSize < inDataSize then .ok (false, outDecompressedData)
    else
      match loadBytes inCompressedData 0 inDataSize with
      | .ok bytes => .ok (true, storeBytes outDecompressedData bytes)
      | .error f => .error f
  | .GZip =>
    let initResult := zlib.InflateInit2_ 31
    if initResult ≠ Z_OK then .ok (false, outDecompressedData)
    else
      let inflated := zlib.Inflate inCompressedData (inDataSize % 4294967296)
        (outDataSize % 4294967296) Z_FINISH
      let out := storeBytes outDecompressedData (inflated.2.take (outDataSize % 4294967296))
      let endResult := zlib.InflateEnd
      if endResult ≠ Z_OK then .ok (false, out) else .ok (true, out)
  | .ZStd =>
    let decompressed := zstd.Decompress outDataSize inCompressedData inDataSize
    .ok (true, storeBytes outDecompressedData (decompressed.2.take outDataSize))

end Compression

/-- The part of the file system that `WriteEntireFile` uses: whether `CreateFileW`
returns a valid handle for a path. -/
structure FileSystem where
  CreateFileW : List u8 → Bool

/-- `IO::WriteEntireFile` (the namespace is dropped here).  `fileContent` is
`none` for a null pointer.  The result is the returned flag and the file
written, if any: its path and the first `fileSize` bytes of the content. -/
def WriteEntireFile (fs : FileSystem) (filePath : List u8) (fileContent : Option (List u8))
    (fileSize : Nat) : Bool × Option (List u8 × List u8) :=
  match fileContent with
  | none => (false, none)
  | some content =>
    if filePath = [] ∨ fileSize = 0 then (false, none)
    else if fs.CreateFileW filePath = false then (false, none)
    else (true, some (filePath, content.take (fileSize % 4294967296)))

namespace Path

/-- `std::string_view::find_last_of`: the position of the last byte of `s` that
occurs in `chars`, or `none` for `npos`. -/
def find_last_of : List u8 → List u8 → Option Nat
  | [], _ => none
  | c :: rest, chars =>
    match find_last_of rest chars with
    | some i => some (i + 1)
    | none => if c ∈ chars then some 0 else none

/-- `Path::GetFileExtension`; the separators are `.`, `/` and `\`. -/
def GetFileExtension (filePath : List u8) : List u8 :=
  match find_last_of filePath [0x2E, 0x2F, 0x5C] with
  | some lastSeparator =>
    if filePath.get? lastSeparator = some 0x2E then filePath.drop lastSeparator else []
  | none => []

/-- `Path::TrimFileExtension`. -/
def TrimFileExtension (filePath : List u8) : List u8 :=
  filePath.take (filePath.length - (GetFileExtension filePath).length)

end Path

end PeepoHappy

namespace FArcExtractor

open PeepoHappy

/-- `_byteswap_ulong`. -/
def ByteSwapU32 (value : Nat) : Nat :=
  value % 256 * 16777216 + value / 256 % 256 * 65536 + value / 65536 % 256 * 256
    + value / 16777216 % 256

inductive FArcSignature where
  | Invalid
  | FArC
  | FARC
  | FARc
deriving DecidableEq, Repr

/-- The bit-field `FArcFlags`; the compiler allots bit-fields from the least
significant bit, so `Unk0` is bit 0. -/
structure FArcFlags where
  Unk0 : Bool
  GZipCompressed : Bool
  Encrypted : Bool
  Unk3 : Bool
  Unk4 : Bool
  Unk5 : Bool
  ZStdCompressed : Bool
  Unk7 : Bool
deriving DecidableEq, Repr

/-- The bit-field `FArcFileFlags`. -/
structure FArcFileFlags where
  Unk0 : Bool
  GZipCompressed : Bool
  Encrypted : Bool
  Unk3 : Bool
  SplitChunks : Bool
  ZStdCompressed : Bool
deriving DecidableEq, Repr

/-- Bit `i` of a word. -/
def bit (word i : Nat) : Bool := word / 2 ^ i % 2 == 1

/-- `*reinterpret_cast<const FArcFlags*>(&farcFlags)`. -/
def FArcFlags.ofU32 (w : Nat) : FArcFlags :=
  { Unk0 := bit w 0, GZipCompressed := bit w 1, Encrypted := bit w 2, Unk3 := bit w 3,
    Unk4 := bit w 4, Unk5 := bit w 5, ZStdCompressed := bit w 6, Unk7 := bit w 7 }

/-- `*reinterpret_cast<const FArcFileFlags*>(&fileFlags)`. -/
def FArcFileFlags.ofU32 (w : Nat) : FArcFileFlags :=
  { Unk0 := bit w 0, GZipCompressed := bit w 1, Encrypted := bit w 2, Unk3 := bit w 3,
    SplitChunks := bit w 4, ZStdCompressed := bit w 5 }

structure FArcFileEntry where
  FileName : List u8
  Offset : Nat
  CompressedSize : Nat
  UncompressedSize : Nat
  Flags : FArcFileFlags
  DecompressedFileContent : Option (List u8)
deriving DecidableEq, Repr

structure FArc where
  FileContent : Option (List u8)
  FileSize : Nat
  Signature : FArcSignature
  Flags : FArcFlags
  Entries : List FArcFileEntry
deriving DecidableEq, Repr

/-- The value of the conditional expression that `OpenReadDecryptAndParseFArcEntries`
assigns to `Signature`.  The multi-character constants `'FArC'`, `'FARC'`,
`'FARc'` have their first character in the most significant byte. -/
def signatureOfU32 (signature : Nat) : FArcSignature :=
  if signature = 0x46417243 then .FArC
  else if signature = 0x46415243 then .FARC
  else if signature = 0x46415263 then .FARc
  else .Invalid

/-- A big-endian `u32` of the buffer: `ByteSwapU32(*reinterpret_cast<const u32*>(p))`. -/
def readU32 (mem : List u8) (p : Nat) : Except Fault Nat :=
  match loadU32 mem p with
  | .ok v => .ok (ByteSwapU32 v)
  | .error f => .error f

/-- The loop over the entry table in `OpenReadDecryptAndParseFArcEntries`:
`count` entries are still to be read and `readHead` is the cursor.  Returns the
entries in the order read. -/
def parseEntries (mem : List u8) (encrypted : Bool) : Nat → Nat → Except Fault (List FArcFileEntry)
  | 0, _ => .ok []
  | count + 1, readHead =>
    match loadCString mem readHead with
    | .error f => .error f
    | .ok name =>
      let p := readHead + (name.length + 1)
      match readU32 mem p, readU32 mem (p + 4), readU32 mem (p + 8), readU32 mem (p + 12) with
      | .ok offset, .ok compressedSize, .ok uncompressedSize, .ok fileFlags =>
        let entry : FArcFileEntry :=
          { FileName := name
            Offset := if encrypted then (offset + Crypto.Aes128KeySize) % 4294967296 else offset
            CompressedSize := compressedSize
            UncompressedSize := uncompressedSize
            Flags := FArcFileFlags.ofU32 fileFlags
            DecompressedFileContent := none }
        match parseEntries mem encrypted count (p + 16) with
        | .ok entries => .ok (entry :: entries)
        | .error f => .error f
      | _, _, _, _ => .error .outOfBounds

/-- The zero-initialised `FArcFlags` of `FArc outFArc = {}`. -/
def FArcFlags.zero : FArcFlags := FArcFlags.ofU32 0

/-- The buffer after the decryption step: bytes `0..31` are kept and the rest
is replaced by what the provider stored. -/
def decryptedContent (api : Crypto.BCrypt) (mem : List u8) (fileSize : Nat) (iv : List u8) :
    List u8 :=
  let key := Crypto.ParseAes128KeyHexByteString "62EC7CD79141695E53592ACC10CDC04C"
  let encryptedDataOffset := 16 + Crypto.Aes128IVSize
  mem.take encryptedDataOffset ++
    (Crypto.DecryptAes128Cbc api (mem.drop encryptedDataOffset)
      (fileSize - encryptedDataOffset) key iv).2

/-- The decryption step of `OpenReadDecryptAndParseFArcEntries`: the buffer
after the step and the position of the read head. -/
def decryptStep (api : Crypto.BCrypt) (mem : List u8) (fileSize : Nat) (flags : FArcFlags) :
    Except Fault (List u8 × Nat) :=
  if flags.Encrypted then
    match loadBytes mem 16 16 with
    | .ok iv => .ok (decryptedContent api mem fileSize iv, 16 + Crypto.Aes128IVSize)
    | .error f => .error f
  else .ok (mem, 16)

/-- The four fields before the entry table and the entry table itself, read
from `readHead` on. -/
def parseTable (mem : List u8) (encrypted : Bool) (readHead : Nat) :
    Except Fault (List FArcFileEntry) :=
  match readU32 mem readHead, readU32 mem (readHead + 4), readU32 mem (readHead + 8),
      readU32 mem (readHead + 12) with
  | .ok _maybeAlignmentA, .ok _unkEither1Or4, .ok fileCount, .ok _maybeAlignmentB =>
    parseEntries mem encrypted fileCount (readHead + 16)
  | _, _, _, _ => .error .outOfBounds

/-- The `else` branch of `OpenReadDecryptAndParseFArcEntries`: header fields,
decryption and the entry table of a buffer whose signature is recognised. -/
def parseBody (api : Crypto.BCrypt) (mem : List u8) (fileSize : Nat)
    (signature : FArcSignature) : Except Fault FArc :=
  match readU32 mem 4, readU32 mem 8, readU32 mem 12 with
  | .ok _headerSize, .ok farcFlags, .ok _unkAlways0 =>
    match decryptStep api mem fileSize (FArcFlags.ofU32 farcFlags) with
    | .error f => .error f
    | .ok (mem', readHead) =>
      match parseTable mem' (FArcFlags.ofU32 farcFlags).Encrypted readHead with
      | .ok entries =>
        .ok { FileContent := some mem', FileSize := fileSize, Signature := signature,
              Flags := FArcFlags.ofU32 farcFlags, Entries := entries }
      | .error f => .error f
  | _, _, _ => .error .outOfBounds

/-- `OpenReadDecryptAndParseFArcEntries`, on the content `file` of the input
file. -/
def OpenReadDecryptAndParseFArcEntries (api : Crypto.BCrypt) (file : List u8) : Except Fault FArc :=
  match ReadEntireFile file with
  | (none, _) => .error .nullDereference
  | (some mem, fileSize) =>
    match readU32 mem 0 with
    | .error f => .error f
    | .ok signature =>
      if signatureOfU32 signature = .Invalid then
        .ok { FileContent := some mem, FileSize := fileSize, Signature := .Invalid,
              Flags := FArcFlags.zero, Entries := [] }
      else parseBody api mem fileSize (signatureOfU32 signature)

/-- Subtraction of `u32` values. -/
def subU32 (a b : Nat) : Nat := (a % 4294967296 + 4294967296 - b % 4294967296) % 4294967296

/-- The scan of the chunk table in `ReadAndDecompressAllFArcEntries`: the `for`
loop over `safetyLimit`, with `limit` iterations still allowed.  The first
component of the result counts the chunk-size values the loop loads; the
second holds the read head and `remainingCompressedSize` when the loop is
left. -/
def scanChunkTable (mem : List u8) : Nat → Nat → Nat → Nat × Except Fault (Nat × Nat)
  | 0, readHead, remainingCompressedSize => (0, .ok (readHead, remainingCompressedSize))
  | limit + 1, readHead, remainingCompressedSize =>
    match loadU32 mem readHead with
    | .error f => (1, .error f)
    | .ok chunkSize =>
      let remaining := subU32 remainingCompressedSize (chunkSize + 4)
      if remaining ≤ 4 then (1, .ok (readHead + 4, remaining))
      else
        let r := scanChunkTable mem limit (readHead + 4) remaining
        (r.1 + 1, r.2)

/-- The read head of `ReadAndDecompressAllFArcEntries` after the optional chunk
table of an entry, with the number of chunk-size values loaded. -/
def skipChunkTable (mem : List u8) (entry : FArcFileEntry) : Nat × Except Fault Nat :=
  if entry.Flags.SplitChunks then
    match loadU32 mem entry.Offset with
    | .error f => (0, .error f)
    | .ok _strangeUnkownData =>
      match scanChunkTable mem 0x4000 (entry.Offset + 4) (subU32 entry.CompressedSize 4) with
      | (count, .ok (readHead, _)) => (count, .ok readHead)
      | (count, .error f) => (count, .error f)
  else (0, .ok entry.Offset)

/-- The local `compressedSizeWithoutChunkTable` of
`ReadAndDecompressAllFArcEntries`; the function computes it and does not use
it. -/
def compressedSizeWithoutChunkTable (entry : FArcFileEntry) (readHead : Nat) : Nat :=
  subU32 entry.CompressedSize (subU32 readHead entry.Offset)

/-- The dispatch on the compression flags in the body of the loop of
`ReadAndDecompressAllFArcEntries`, with the read head after the chunk table. -/
def decodePayload (zlib : ZLIB) (zstd : ZSTD) (mem : List u8) (entry : FArcFileEntry)
    (readHead : Nat) : Except Fault FArcFileEntry :=
  let buffer : List u8 := List.replicate entry.UncompressedSize 0
  if entry.Flags.GZipCompressed then
    match Compression.Decompress zlib zstd .GZip (mem.drop readHead) entry.CompressedSize
        buffer entry.UncompressedSize with
    | .ok (_wasSuccessful, out) => .ok { entry with DecompressedFileContent := some out }
    | .error f => .error f
  else if entry.Flags.ZStdCompressed then
    match Compression.Decompress zlib zstd .ZStd (mem.drop readHead) entry.CompressedSize
        buffer entry.UncompressedSize with
    | .ok (_decompressResult, out) => .ok { entry with DecompressedFileContent := some out }
    | .error f => .error f
  else
    match loadBytes mem readHead entry.UncompressedSize with
    | .ok bytes => .ok { entry with DecompressedFileContent := some (storeBytes buffer bytes) }
    | .error f => .error f

/-- The body of the loop of `ReadAndDecompressAllFArcEntries` for one entry. -/
def decodeEntry (zlib : ZLIB) (zstd : ZSTD) (mem : List u8) (entry : FArcFileEntry) :
    Except Fault FArcFileEntry :=
  match (skipChunkTable mem entry).2 with
  | .error f => .error f
  | .ok readHead => decodePayload zlib zstd mem entry readHead

/-- The loop of `ReadAndDecompressAllFArcEntries` over the entries. -/
def decodeEntries (zlib : ZLIB) (zstd : ZSTD) (mem : List u8) :
    List FArcFileEntry → Except Fault (List FArcFileEntry)
  | [] => .ok []
  | entry :: rest =>
    match decodeEntry zlib zstd mem entry with
    | .error f => .error f
    | .ok decoded =>
      match decodeEntries zlib zstd mem rest with
      | .ok others => .ok (decoded :: others)
      | .error f => .error f

/-- `ReadAndDecompressAllFArcEntries`: the returned flag and the archive after
the call. -/
def ReadAndDecompressAllFArcEntries (zlib : ZLIB) (zstd : ZSTD) (inOutFArc : FArc) :
    Except Fault (Bool × FArc) :=
  match inOutFArc.FileContent with
  | none => .ok (false, inOutFArc)
  | some mem =>
    if inOutFArc.FileSize < 16 then .ok (false, inOutFArc)
    else
      match decodeEntries zlib zstd mem inOutFArc.Entries with
      | .ok entries => .ok (true, { inOutFArc with Entries := entries })
      | .error f => .error f

/-- The path `ExtractWriteAllFArcEntriesIntoDirectory` passes to `WriteEntireFile`
for an entry: the content of `outputPathBuffer` up to its first zero byte.  The
byte copied after the name is the terminator the parser found there. -/
def outputPath (outputDirectory : List u8) (entry : FArcFileEntry) : List u8 :=
  (outputDirectory ++ [0x2F] ++ entry.FileName).takeWhile (fun b => b != 0)

/-- The loop of `ExtractWriteAllFArcEntriesIntoDirectory`: the files written,
in order.  An entry whose path does not fit `outputPathBuffer` overruns it. -/
def extractEntries (fs : FileSystem) (outputDirectory : List u8) :
    List FArcFileEntry → Except Fault (List (List u8 × List u8))
  | [] => .ok []
  | entry :: rest =>
    if entry.FileName = [] ∨ entry.DecompressedFileContent = none then
      extractEntries fs outputDirectory rest
    else if 2048 < outputDirectory.length + 1 + (entry.FileName.length + 1) then
      .error .outOfBounds
    else
      let written := (WriteEntireFile fs (outputPath outputDirectory entry)
        entry.DecompressedFileContent entry.UncompressedSize).2
      match extractEntries fs outputDirectory rest with
      | .ok files => .ok (written.toList ++ files)
      | .error f => .error f

/-- `ExtractWriteAllFArcEntriesIntoDirectory`: the returned flag and the files
written. -/
def ExtractWriteAllFArcEntriesIntoDirectory (fs : FileSystem) (inFArc : FArc)
    (outputDirectory : List u8) : Except Fault (Bool × List (List u8 × List u8)) :=
  if inFArc.FileContent = none ∨ inFArc.Signature = .Invalid then .ok (false, [])
  else if 2048 ≤ outputDirectory.length then .error .outOfBounds
  else
    match extractEntries fs outputDirectory inFArc.Entries with
    | .ok files => .ok (true, files)
    | .error f => .error f

/-! ### The entry table as the specification lays it out -/

/-- The four bytes of a `u32` in big-endian order. -/
def u32Bytes (v : Nat) : List u8 :=
  [Fin.ofNat (v / 16777216), Fin.ofNat (v / 65536), Fin.ofNat (v / 256), Fin.ofNat v]

/-- One record of the entry table, as the specification describes it: a name and
four 32-bit fields. -/
structure EntryRecord where
  name : List u8
  offset : Nat
  compressedSize : Nat
  uncompressedSize : Nat
  flags : Nat
deriving DecidableEq, Repr

/-- The name holds no zero byte and the fields are 32-bit values. -/
def EntryRecord.WellFormed (r : EntryRecord) : Prop :=
  (0 : u8) ∉ r.name ∧ r.offset < 4294967296 ∧ r.compressedSize < 4294967296 ∧
    r.uncompressedSize < 4294967296 ∧ r.flags < 4294967296

instance (r : EntryRecord) : Decidable r.WellFormed := by
  unfold EntryRecord.WellFormed
  infer_instance

/-- The bytes of a record: the name, its zero terminator, then offset, compressed
size, uncompressed size and flags word, each big-endian. -/
def EntryRecord.bytes (r : EntryRecord) : List u8 :=
  r.name ++ 0 :: (u32Bytes r.offset ++ (u32Bytes r.compressedSize ++
    (u32Bytes r.uncompressedSize ++ u32Bytes r.flags)))

/-- The bytes of an entry table: the records one after the other. -/
def tableBytes : List EntryRecord → List u8
  | [] => []
  | r :: rs => r.bytes ++ tableBytes rs

/-- The entry that a record stands for when its fields are taken as stored. -/
def EntryRecord.stored (r : EntryRecord) : FArcFileEntry :=
  { FileName := r.name, Offset := r.offset, CompressedSize := r.compressedSize,
    UncompressedSize := r.uncompressedSize, Flags := FArcFileFlags.ofU32 r.flags,
    DecompressedFileContent := none }

/-- The entry the parser builds from a record; in an encrypted archive the
stored offset is advanced by the key size, as a `u32`. -/
def EntryRecord.parsed (encrypted : Bool) (r : EntryRecord) : FArcFileEntry :=
  { r.stored with
    Offset := if encrypted then (r.offset + Crypto.Aes128KeySize) % 4294967296 else r.offset }

/-- The ASCII tag `FArC`. -/
def tagFArC : List u8 := [0x46, 0x41, 0x72, 0x43]

/-- The ASCII tag `FARC`. -/
def tagFARC : List u8 := [0x46, 0x41, 0x52, 0x43]

/-- The ASCII tag `FARc`. -/
def tagFARc : List u8 := [0x46, 0x41, 0x52, 0x63]

/-- The big-endian value of four bytes. -/
def be32 (b0 b1 b2 b3 : u8) : Nat :=
  b0.val * 16777216 + b1.val * 65536 + b2.val * 256 + b3.val

/-- A provider whose calls all succeed and whose `Decrypt` and `Encrypt` store
their input unchanged. -/
def identityBCrypt : Crypto.BCrypt :=
  { OpenAlgorithmProvider := 0, SetProperty := 0, GetProperty := 0,
    GenerateSymmetricKey := fun _ => 0,
    Decrypt := fun _ input _ _ => (0, input),
    Encrypt := fun _ input _ _ => (0, input) }

/-- An unencrypted archive without entries: the tag `FArC` and 28 zero bytes. -/
def emptyArchiveFile : List u8 := tagFArC ++ List.replicate 28 0


/-- An unencrypted archive with one stored entry `a.txt` whose payload is the
five bytes of `hello`, at offset 54. -/
def helloArchiveFile : List u8 :=
  tagFArC ++ List.replicate 20 0 ++ [0, 0, 0, 1] ++ [0, 0, 0, 0] ++
    tableBytes [⟨[0x61, 0x2E, 0x74, 0x78, 0x74], 54, 5, 5, 0⟩] ++ [0x68, 0x65, 0x6C, 0x6C, 0x6F]

/-- An archive with the encrypted bit set, given by the bytes its data region
decrypts to: one entry `a` whose stored offset is `0xFFFFFFF8`.  The data
region is padded to 48 bytes, a multiple of the block size. -/
def wrappingOffsetFile : List u8 :=
  tagFArC ++ [0, 0, 0, 0] ++ [0, 0, 0, 4] ++ [0, 0, 0, 0] ++ List.replicate 16 0 ++
    List.replicate 8 0 ++ [0, 0, 0, 1] ++ [0, 0, 0, 0] ++
    tableBytes [⟨[0x61], 0xFFFFFFF8, 0, 0, 0⟩] ++ List.replicate 14 0

/-- A zlib whose calls succeed and store nothing. -/
def idleZLIB : ZLIB :=
  { InflateInit2_ := fun _ => 0, Inflate := fun _ _ _ _ => (0, []), InflateEnd := 0 }

/-- A zstd whose call stores nothing. -/
def idleZSTD : ZSTD := { Decompress := fun _ _ _ => (0, []) }

/-- A zlib whose `inflate` stores two bytes and then reports `Z_DATA_ERROR`. -/
def failingZLIB : ZLIB :=
  { InflateInit2_ := fun _ => 0, Inflate := fun _ _ _ _ => (-3, [0xAA, 0xBB]), InflateEnd := 0 }

/-- A zstd whose call stores the single byte `0x02`. -/
def markingZSTD : ZSTD := { Decompress := fun _ _ _ => (1, [0x02]) }

/-- A file system in which every file can be created. -/
def permissiveFileSystem : FileSystem := { CreateFileW := fun _ => true }

/-- The directory name `out`. -/
def outDirectory : List u8 := [0x6F, 0x75, 0x74]

/-- An unencrypted archive with two entries: `a`, gzip-compressed, 5 bytes at
offset 68 declared to inflate to 8 bytes, and `b`, stored, the five bytes of
`hello` at offset 73. -/
def gzipArchiveFile : List u8 :=
  tagFArC ++ List.replicate 20 0 ++ [0, 0, 0, 2] ++ [0, 0, 0, 0] ++
    tableBytes [⟨[0x61], 68, 5, 8, 2⟩, ⟨[0x62], 73, 5, 5, 0⟩] ++
    [1, 2, 3, 4, 5] ++ [0x68, 0x65, 0x6C, 0x6C, 0x6F]

/-- An entry with both the gzip and the zstd bit set (flags word `0x22`). -/
def bothBitsEntry : FArcFileEntry :=
  { FileName := [0x61], Offset := 0, CompressedSize := 4, UncompressedSize := 2,
    Flags := FArcFileFlags.ofU32 0x22, DecompressedFileContent := none }

/-- An unencrypted archive with one splitChunks entry `a` at offset 50, of
compressed size `0x100000` and uncompressed size 1, stored, followed by 65541
zero bytes: every chunk-size value of the scan is 0. -/
def saturatedChunkTableFile : List u8 :=
  tagFArC ++ List.replicate 20 0 ++ [0, 0, 0, 1] ++ [0, 0, 0, 0] ++
    (tableBytes [⟨[0x61], 50, 1048576, 1, 16⟩] ++ List.replicate 65541 0)

/-- The entry of `saturatedChunkTableFile`. -/
def saturatedEntry : FArcFileEntry := EntryRecord.stored ⟨[0x61], 50, 1048576, 1, 16⟩

/-- Modelled from the spec: the macro `EXIT_WIDEPEEPOHAPPY` is defined in a
header that is not among the sources; the spec gives exit code 0 on full
success. -/
def EXIT_WIDEPEEPOHAPPY : Int := 0

/-- Modelled from the spec: the macro `EXIT_WIDEPEEPOSAD` is defined in a header
that is not among the sources; the spec gives exit code 1 on any failure. -/
def EXIT_WIDEPEEPOSAD : Int := 1

/-- `EntryPoint`.  `argv` holds the command-line arguments and `disk` gives the
content of the file at a path (empty when the file cannot be opened).  The
result is the exit code and the files written. -/
def EntryPoint (api : Crypto.BCrypt) (zlib : ZLIB) (zstd : ZSTD) (fs : FileSystem)
    (disk : List u8 → List u8) (argv : List (List u8)) :
    Except Fault (Int × List (List u8 × List u8)) :=
  match argv with
  | _ :: inputFArcPath :: _ =>
    let outputDirectory := Path.TrimFileExtension inputFArcPath
    match OpenReadDecryptAndParseFArcEntries api (disk inputFArcPath) with
    | .error f => .error f
    | .ok farc =>
      match ReadAndDecompressAllFArcEntries zlib zstd farc with
      | .error f => .error f
      | .ok (false, _) => .ok (EXIT_WIDEPEEPOSAD, [])
      | .ok (true, decoded) =>
        match ExtractWriteAllFArcEntriesIntoDirectory fs decoded outputDirectory with
        | .error f => .error f
        | .ok (false, files) => .ok (EXIT_WIDEPEEPOSAD, files)
        | .ok (true, files) => .ok (EXIT_WIDEPEEPOHAPPY, files)
  | _ => .ok (EXIT_WIDEPEEPOSAD, [])

/-- An unencrypted archive whose one stored entry `a.txt` declares 100
uncompressed bytes at offset 54, where the file has 5 bytes left. -/
def overrunArchiveFile : List u8 :=
  tagFArC ++ List.replicate 20 0 ++ [0, 0, 0, 1] ++ [0, 0, 0, 0] ++
    tableBytes [⟨[0x61, 0x2E, 0x74, 0x78, 0x74], 54, 5, 100, 0⟩] ++ [0x68, 0x65, 0x6C, 0x6C, 0x6F]

/-- An unencrypted archive whose one stored entry `a.txt` declares 1000
compressed bytes at offset 54, where the file has 5 bytes left, and 5
uncompressed bytes. -/
def oversizedArchiveFile : List u8 :=
  tagFArC ++ List.replicate 20 0 ++ [0, 0, 0, 1] ++ [0, 0, 0, 0] ++
    tableBytes [⟨[0x61, 0x2E, 0x74, 0x78, 0x74], 54, 1000, 5, 0⟩] ++ [0x68, 0x65, 0x6C, 0x6C, 0x6F]

/-- An unencrypted archive of 32 bytes that declares one entry and ends before
the entry table. -/
def truncatedArchiveFile : List u8 :=
  tagFArC ++ List.replicate 20 0 ++ [0, 0, 0, 1] ++ [0, 0, 0, 0]

/-- An unencrypted archive that declares one entry whose name `abc` runs to
the end of the file without a zero terminator. -/
def unterminatedNameFile : List u8 :=
  tagFArC ++ List.replicate 20 0 ++ [0, 0, 0, 1] ++ [0, 0, 0, 0] ++ [0x61, 0x62, 0x63]

/-- The archive that `OpenReadDecryptAndParseFArcEntries` returns for a buffer
whose signature is not recognised: the buffer as read, the zero-initialised
flags and no entries. -/
def unrecognisedArchive (file : List u8) : FArc :=
  { FileContent := some file, FileSize := file.length, Signature := .Invalid,
    Flags := FArcFlags.zero, Entries := [] }

/-- A file of 20 bytes that starts with the tag `PK\x03\x04` of another
container format. -/
def foreignFile : List u8 := [0x50, 0x4B, 0x03, 0x04] ++ List.replicate 16 0

/-- A provider whose setup calls succeed and whose `Decrypt` and `Encrypt` store
nothing and return `STATUS_INVALID_PARAMETER`. -/
def failingBCrypt : Crypto.BCrypt :=
  { OpenAlgorithmProvider := 0, SetProperty := 0, GetProperty := 0,
    GenerateSymmetricKey := fun _ => 0,
    Decrypt := fun _ _ _ _ => (-1073741811, []),
    Encrypt := fun _ _ _ _ => (-1073741811, []) }

/-- An archive of 80 bytes with the encrypted bit set: a zero IV and a data
region of 48 bytes that reads, as it stands, as a table with the one record
`a` of stored offset 64. -/
def encryptedArchiveFile : List u8 :=
  tagFArC ++ [0, 0, 0, 0] ++ [0, 0, 0, 4] ++ [0, 0, 0, 0] ++ List.replicate 16 0 ++
    List.replicate 8 0 ++ [0, 0, 0, 1] ++ [0, 0, 0, 0] ++
    tableBytes [⟨[0x61], 64, 5, 5, 0⟩] ++ List.replicate 14 0

/-- The 16 bytes of the key `62EC7CD79141695E53592ACC10CDC04C`. -/
def fixedKeyBytes : List u8 :=
  [0x62, 0xEC, 0x7C, 0xD7, 0x91, 0x41, 0x69, 0x5E, 0x53, 0x59, 0x2A, 0xCC, 0x10, 0xCD, 0xC0, 0x4C]

/-- An unencrypted archive of 50 bytes with one stored entry `a` of compressed
and uncompressed size 0 at offset 50. -/
def emptyEntryArchiveFile : List u8 :=
  tagFArC ++ List.replicate 20 0 ++ [0, 0, 0, 1] ++ [0, 0, 0, 0] ++
    tableBytes [⟨[0x61], 50, 0, 0, 0⟩]

/-- A zlib whose `inflate` stores the four big-endian bytes of `avail_in`
followed by the first byte at `next_in`. -/
def recordingZLIB : ZLIB :=
  { InflateInit2_ := fun _ => 0,
    Inflate := fun next_in avail_in _ _ => (1, u32Bytes avail_in ++ next_in.take 1),
    InflateEnd := 0 }

/-- An unencrypted archive of 70 bytes with one gzip-compressed splitChunks
entry `a` at offset 50, of compressed size 20 and uncompressed size 5: the lead
value, one chunk-size value 12 (as the scan reads it) and 12 payload bytes that
start with `0x99`. -/
def splitGzipArchiveFile : List u8 :=
  tagFArC ++ List.replicate 20 0 ++ [0, 0, 0, 1] ++ [0, 0, 0, 0] ++
    tableBytes [⟨[0x61], 50, 20, 5, 18⟩] ++ [0, 0, 0, 0] ++ [12, 0, 0, 0] ++
    [0x99] ++ List.replicate 11 0

/-! ### The chunk table as the specification describes it -/

/-- The chunk-size value at position `p` of the buffer, as the scan loads it. -/
def chunkSizeAt (mem : List u8) (p : Nat) : Nat :=
  match loadU32 mem p with
  | .ok chunkSize => chunkSize
  | .error _ => 0

/-- The sum of `c + 4` over the `k` consecutive chunk-size values `c` that start
at position `p`. -/
def chunkSum (mem : List u8) (p k : Nat) : Nat :=
  ((List.range k).map fun i => chunkSizeAt mem (p + 4 * i) + 4).sum

/-- The remaining compressed size after the lead value and `k` chunk-size values
of an entry, as the specification gives it:
`(CompressedSize - 4 - sum of (c_i + 4)) mod 2^32`. -/
def remainingAfter (mem : List u8) (entry : FArcFileEntry) (k : Nat) : Int :=
  ((entry.CompressedSize : Int) - 4 - (chunkSum mem (entry.Offset + 4) k : Nat)) % 4294967296

/-- The entry of `splitGzipArchiveFile`. -/
def splitGzipEntry : FArcFileEntry := EntryRecord.stored ⟨[0x61], 50, 20, 5, 18⟩

/-- The archive that the parser returns for `helloArchiveFile`. -/
def helloArchive : FArc :=
  { FileContent := some helloArchiveFile, FileSize := 59, Signature := .FArC,
    Flags := FArcFlags.ofU32 0,
    Entries := [EntryRecord.stored ⟨[0x61, 0x2E, 0x74, 0x78, 0x74], 54, 5, 5, 0⟩] }

/-- The archive `helloArchive` after decoding: its entry holds the bytes of
`hello`. -/
def helloDecodedArchive : FArc :=
  { helloArchive with
    Entries := [{ EntryRecord.stored ⟨[0x61, 0x2E, 0x74, 0x78, 0x74], 54, 5, 5, 0⟩ with
      DecompressedFileContent := some [0x68, 0x65, 0x6C, 0x6C, 0x6F] }] }
/-! ## Reading the buffer -/

theorem ByteSwapU32_le (b0 b1 b2 b3 : u8) :
    ByteSwapU32 (b0.val + 256 * b1.val + 65536 * b2.val + 16777216 * b3.val) = be32 b0 b1 b2 b3 := by
  unfold ByteSwapU32 be32
  omega

theorem be32_lt (b0 b1 b2 b3 : u8) : be32 b0 b1 b2 b3 < 4294967296 := by
  unfold be32
  omega

theorem readU32_ok_iff (mem : List u8) (p v : Nat) :
    readU32 mem p = .ok v ↔
      ∃ b0 b1 b2 b3 rest, mem.drop p = b0 :: b1 :: b2 :: b3 :: rest ∧ v = be32 b0 b1 b2 b3 := by
  unfold readU32 loadU32
  constructor
  · intro h
    split at h
    · rename_i v' hv
      split at hv
      · rename_i b0 b1 b2 b3 rest hd
        refine ⟨b0, b1, b2, b3, rest, hd, ?_⟩
        cases hv
        cases h
        exact (ByteSwapU32_le b0 b1 b2 b3)
      · cases hv
    · cases h
  · rintro ⟨b0, b1, b2, b3, rest, hd, rfl⟩
    rw [hd]
    simp [ByteSwapU32_le]

theorem readU32_cons4 (b0 b1 b2 b3 : u8) (rest : List u8) :
    readU32 (b0 :: b1 :: b2 :: b3 :: rest) 0 = .ok (be32 b0 b1 b2 b3) :=
  (readU32_ok_iff _ _ _).2 ⟨b0, b1, b2, b3, rest, rfl, rfl⟩

theorem exists_cons4 (file : List u8) (hlen : 4 ≤ file.length) :
    ∃ b0 b1 b2 b3 rest, file = b0 :: b1 :: b2 :: b3 :: rest := by
  match file, hlen with
  | b0 :: b1 :: b2 :: b3 :: rest, _ => exact ⟨b0, b1, b2, b3, rest, rfl⟩

theorem readU32_of_le (mem : List u8) (p : Nat) (h : p + 4 ≤ mem.length) :
    ∃ v, readU32 mem p = .ok v := by
  have hl : 4 ≤ (mem.drop p).length := by
    rw [List.length_drop]
    omega
  obtain ⟨b0, b1, b2, b3, rest, hd⟩ := exists_cons4 _ hl
  exact ⟨_, (readU32_ok_iff _ _ _).2 ⟨b0, b1, b2, b3, rest, hd, rfl⟩⟩

theorem readU32_le (mem : List u8) (p v : Nat) (h : readU32 mem p = .ok v) :
    p + 4 ≤ mem.length := by
  obtain ⟨b0, b1, b2, b3, rest, hd, _⟩ := (readU32_ok_iff _ _ _).1 h
  have hl : (mem.drop p).length = rest.length + 4 := by rw [hd]; rfl
  rw [List.length_drop] at hl
  omega

theorem drop_add_of_drop_eq (mem : List u8) (p : Nat) (pre suf : List u8)
    (h : mem.drop p = pre ++ suf) : mem.drop (p + pre.length) = suf := by
  rw [← List.drop_drop, h, List.drop_left]

theorem readU32_of_drop (mem : List u8) (p : Nat) (pre : List u8) (b0 b1 b2 b3 : u8)
    (rest : List u8) (h : mem.drop p = pre ++ b0 :: b1 :: b2 :: b3 :: rest) :
    readU32 mem (p + pre.length) = .ok (be32 b0 b1 b2 b3) :=
  (readU32_ok_iff _ _ _).2 ⟨b0, b1, b2, b3, rest, drop_add_of_drop_eq mem p pre _ h, rfl⟩

theorem u32Bytes_be32 (b0 b1 b2 b3 : u8) : u32Bytes (be32 b0 b1 b2 b3) = [b0, b1, b2, b3] := by
  unfold u32Bytes be32
  have h0 : (Fin.ofNat ((b0.val * 16777216 + b1.val * 65536 + b2.val * 256 + b3.val) / 16777216) :
      u8) = b0 := Fin.ext (by simp only [Fin.ofNat, Fin.val_mk]; omega)
  have h1 : (Fin.ofNat ((b0.val * 16777216 + b1.val * 65536 + b2.val * 256 + b3.val) / 65536) :
      u8) = b1 := Fin.ext (by simp only [Fin.ofNat, Fin.val_mk]; omega)
  have h2 : (Fin.ofNat ((b0.val * 16777216 + b1.val * 65536 + b2.val * 256 + b3.val) / 256) :
      u8) = b2 := Fin.ext (by simp only [Fin.ofNat, Fin.val_mk]; omega)
  have h3 : (Fin.ofNat (b0.val * 16777216 + b1.val * 65536 + b2.val * 256 + b3.val) :
      u8) = b3 := Fin.ext (by simp only [Fin.ofNat, Fin.val_mk]; omega)
  rw [h0, h1, h2, h3]

theorem be32_u32Bytes (v : Nat) (hv : v < 4294967296) :
    ∃ b0 b1 b2 b3, u32Bytes v = [b0, b1, b2, b3] ∧ be32 b0 b1 b2 b3 = v := by
  refine ⟨Fin.ofNat (v / 16777216), Fin.ofNat (v / 65536), Fin.ofNat (v / 256), Fin.ofNat v,
    rfl, ?_⟩
  unfold be32
  simp only [Fin.ofNat, Fin.val_mk]
  omega

theorem loadCString_ok_of_drop (mem : List u8) (p : Nat) (name rest : List u8)
    (hname : (0 : u8) ∉ name) (h : mem.drop p = name ++ 0 :: rest) :
    loadCString mem p = .ok name := by
  have htw : ∀ (n : List u8), (0 : u8) ∉ n →
      (n ++ 0 :: rest).takeWhile (fun b => b != 0) = n := by
    intro n
    induction n with
    | nil => intro _; simp
    | cons b n ih =>
      intro hb
      have hb0 : b ≠ 0 := fun e => hb (by simp [e])
      have hn : (0 : u8) ∉ n := fun e => hb (by simp [e])
      have hbb : (b != 0) = true := by simpa using hb0
      rw [List.cons_append, List.takeWhile_cons, hbb]
      simp only [if_true]
      rw [ih hn]
  unfold loadCString
  simp only [h, htw name hname]
  simp

theorem loadCString_ok (mem : List u8) (p : Nat) (name : List u8)
    (h : loadCString mem p = .ok name) :
    (0 : u8) ∉ name ∧ ∃ rest, mem.drop p = name ++ 0 :: rest := by
  have key : ∀ (l : List u8), (l.takeWhile (fun b => b != 0)).length < l.length →
      (0 : u8) ∉ l.takeWhile (fun b => b != 0) ∧
        ∃ rest, l = l.takeWhile (fun b => b != 0) ++ 0 :: rest := by
    intro l
    induction l with
    | nil => intro hl; simp at hl
    | cons b l ih =>
      intro hl
      by_cases hb : b = 0
      · subst hb
        simp
      · have hbb : (b != 0) = true := by simpa using hb
        have htw : (b :: l).takeWhile (fun b => b != 0) = b :: l.takeWhile (fun b => b != 0) := by
          rw [List.takeWhile_cons, hbb]
          simp only [if_true]
        rw [htw] at hl ⊢
        simp only [List.length_cons, Nat.add_lt_add_iff_right] at hl
        obtain ⟨h0, rest, hr⟩ := ih hl
        refine ⟨?_, rest, ?_⟩
        · intro hmem
          rcases List.mem_cons.1 hmem with e | e
          · exact hb e.symm
          · exact h0 e
        · rw [List.cons_append, ← hr]
  unfold loadCString at h
  simp only at h
  split at h
  · rename_i hlt
    cases h
    exact key _ hlt
  · cases h

/-! ## The entry table -/

theorem read4_ok (mem : List u8) (q a b c d : Nat)
    (ha : readU32 mem q = .ok a) (hb : readU32 mem (q + 4) = .ok b)
    (hc : readU32 mem (q + 8) = .ok c) (hd : readU32 mem (q + 12) = .ok d) :
    (a < 4294967296 ∧ b < 4294967296 ∧ c < 4294967296 ∧ d < 4294967296) ∧
    mem.drop q = u32Bytes a ++ (u32Bytes b ++ (u32Bytes c ++ (u32Bytes d ++ mem.drop (q + 16)))) := by
  obtain ⟨a0, a1, a2, a3, ra, hda, rfl⟩ := (readU32_ok_iff _ _ _).1 ha
  obtain ⟨b0, b1, b2, b3, rb, hdb, rfl⟩ := (readU32_ok_iff _ _ _).1 hb
  obtain ⟨c0, c1, c2, c3, rc, hdc, rfl⟩ := (readU32_ok_iff _ _ _).1 hc
  obtain ⟨d0, d1, d2, d3, rd, hdd, rfl⟩ := (readU32_ok_iff _ _ _).1 hd
  refine ⟨⟨be32_lt _ _ _ _, be32_lt _ _ _ _, be32_lt _ _ _ _, be32_lt _ _ _ _⟩, ?_⟩
  have e1 : mem.drop (q + 4) = ra :=
    drop_add_of_drop_eq mem q [a0, a1, a2, a3] ra (by simpa using hda)
  have e2 : mem.drop (q + 8) = rb := by
    have := drop_add_of_drop_eq mem (q + 4) [b0, b1, b2, b3] rb (by simpa using hdb)
    simpa [Nat.add_assoc] using this
  have e3 : mem.drop (q + 12) = rc := by
    have := drop_add_of_drop_eq mem (q + 8) [c0, c1, c2, c3] rc (by simpa using hdc)
    simpa [Nat.add_assoc] using this
  have e4 : mem.drop (q + 16) = rd := by
    have := drop_add_of_drop_eq mem (q + 12) [d0, d1, d2, d3] rd (by simpa using hdd)
    simpa [Nat.add_assoc] using this
  rw [u32Bytes_be32, u32Bytes_be32, u32Bytes_be32, u32Bytes_be32, e4, hda, ← e1, hdb, ← e2, hdc,
    ← e3, hdd]
  rfl

theorem read4_of_drop (mem : List u8) (q a b c d : Nat) (rest : List u8)
    (ha : a < 4294967296) (hb : b < 4294967296) (hc : c < 4294967296) (hd : d < 4294967296)
    (h : mem.drop q = u32Bytes a ++ (u32Bytes b ++ (u32Bytes c ++ (u32Bytes d ++ rest)))) :
    readU32 mem q = .ok a ∧ readU32 mem (q + 4) = .ok b ∧ readU32 mem (q + 8) = .ok c ∧
      readU32 mem (q + 12) = .ok d ∧ mem.drop (q + 16) = rest := by
  obtain ⟨a0, a1, a2, a3, ea, rfl⟩ := be32_u32Bytes a ha
  obtain ⟨b0, b1, b2, b3, eb, rfl⟩ := be32_u32Bytes b hb
  obtain ⟨c0, c1, c2, c3, ec, rfl⟩ := be32_u32Bytes c hc
  obtain ⟨d0, d1, d2, d3, ed, rfl⟩ := be32_u32Bytes d hd
  rw [ea, eb, ec, ed] at h
  refine ⟨?_, ?_, ?_, ?_, ?_⟩
  · exact readU32_of_drop mem q [] a0 a1 a2 a3 _ (by simpa using h)
  · exact readU32_of_drop mem q [a0, a1, a2, a3] b0 b1 b2 b3 _ (by simpa using h)
  · exact readU32_of_drop mem q [a0, a1, a2, a3, b0, b1, b2, b3] c0 c1 c2 c3 _ (by simpa using h)
  · exact readU32_of_drop mem q [a0, a1, a2, a3, b0, b1, b2, b3, c0, c1, c2, c3] d0 d1 d2 d3 _
      (by simpa using h)
  · exact drop_add_of_drop_eq mem q
      [a0, a1, a2, a3, b0, b1, b2, b3, c0, c1, c2, c3, d0, d1, d2, d3] rest (by simpa using h)

theorem parseEntries_succ_ok (mem : List u8) (enc : Bool) (n p : Nat) (es : List FArcFileEntry)
    (h : parseEntries mem enc (n + 1) p = .ok es) :
    ∃ name o c u f es', loadCString mem p = .ok name ∧
      readU32 mem (p + (name.length + 1)) = .ok o ∧
      readU32 mem (p + (name.length + 1) + 4) = .ok c ∧
      readU32 mem (p + (name.length + 1) + 8) = .ok u ∧
      readU32 mem (p + (name.length + 1) + 12) = .ok f ∧
      parseEntries mem enc n (p + (name.length + 1) + 16) = .ok es' ∧
      es = EntryRecord.parsed enc ⟨name, o, c, u, f⟩ :: es' := by
  unfold parseEntries at h
  split at h
  · cases h
  · rename_i name hname
    simp only at h
    split at h
    · rename_i o c u f ho hc hu hf
      split at h
      · rename_i es' hes
        cases h
        exact ⟨name, o, c, u, f, es', hname, ho, hc, hu, hf, hes, rfl⟩
      · cases h
    · cases h

theorem parseEntries_succ_of (mem : List u8) (enc : Bool) (n p : Nat) (name : List u8)
    (o c u f : Nat) (es' : List FArcFileEntry)
    (hname : loadCString mem p = .ok name)
    (ho : readU32 mem (p + (name.length + 1)) = .ok o)
    (hc : readU32 mem (p + (name.length + 1) + 4) = .ok c)
    (hu : readU32 mem (p + (name.length + 1) + 8) = .ok u)
    (hf : readU32 mem (p + (name.length + 1) + 12) = .ok f)
    (hes : parseEntries mem enc n (p + (name.length + 1) + 16) = .ok es') :
    parseEntries mem enc (n + 1) p = .ok (EntryRecord.parsed enc ⟨name, o, c, u, f⟩ :: es') := by
  unfold parseEntries
  simp only [hname, ho, hc, hu, hf, hes]
  rfl

/-- The parser reads `n` entries from position `p` exactly when the buffer holds,
from `p` on, the bytes of `n` well-formed records; the entries are then the
records in order. -/
theorem parseEntries_ok_iff (mem : List u8) (enc : Bool) (n p : Nat) (es : List FArcFileEntry) :
    parseEntries mem enc n p = .ok es ↔
      ∃ rs rest, rs.length = n ∧ (∀ r ∈ rs, r.WellFormed) ∧
        mem.drop p = tableBytes rs ++ rest ∧ es = rs.map (EntryRecord.parsed enc) := by
  constructor
  · intro h
    induction n generalizing p es with
    | zero =>
      unfold parseEntries at h
      cases h
      exact ⟨[], mem.drop p, rfl, by simp, by simp [tableBytes], rfl⟩
    | succ n ih =>
      obtain ⟨name, o, c, u, f, es', hname, ho, hc, hu, hf, hes, rfl⟩ :=
        parseEntries_succ_ok mem enc n p es h
      obtain ⟨rs, rest, hlen, hwf, hdrop, rfl⟩ := ih _ _ hes
      obtain ⟨h0, rest1, hd1⟩ := loadCString_ok mem p name hname
      obtain ⟨⟨lo, lc, lu, lf⟩, hd4⟩ := read4_ok mem _ o c u f ho hc hu hf
      have hq : mem.drop (p + (name.length + 1)) = rest1 := by
        have := drop_add_of_drop_eq mem p (name ++ [0]) rest1 (by simpa using hd1)
        simpa using this
      refine ⟨⟨name, o, c, u, f⟩ :: rs, rest, by simp [hlen], ?_, ?_, rfl⟩
      · intro r hr
        rcases List.mem_cons.1 hr with e | e
        · subst e
          exact ⟨h0, lo, lc, lu, lf⟩
        · exact hwf r e
      · rw [hd1, ← hq, hd4, hdrop]
        simp [tableBytes, EntryRecord.bytes]
  · rintro ⟨rs, rest, hlen, hwf, hdrop, rfl⟩
    induction rs generalizing n p with
    | nil =>
      subst hlen
      rfl
    | cons r rs ih =>
      subst hlen
      obtain ⟨name, o, c, u, f⟩ := r
      obtain ⟨h0, lo, lc, lu, lf⟩ := hwf _ (List.mem_cons_self _ _)
      simp only at h0 lo lc lu lf
      have hd1 : mem.drop p = name ++ 0 :: (u32Bytes o ++ (u32Bytes c ++ (u32Bytes u ++
          (u32Bytes f ++ (tableBytes rs ++ rest))))) := by
        rw [hdrop]
        simp [tableBytes, EntryRecord.bytes]
      have hname := loadCString_ok_of_drop mem p name _ h0 hd1
      have hq : mem.drop (p + (name.length + 1)) = u32Bytes o ++ (u32Bytes c ++ (u32Bytes u ++
          (u32Bytes f ++ (tableBytes rs ++ rest)))) := by
        have := drop_add_of_drop_eq mem p (name ++ [0]) _ (by simpa using hd1)
        simpa using this
      obtain ⟨ho, hc, hu, hf, hrest⟩ := read4_of_drop mem _ o c u f _ lo lc lu lf hq
      have hes := ih rs.length (p + (name.length + 1) + 16) rfl
        (fun r hr => hwf r (List.mem_cons_of_mem _ hr)) hrest
      exact parseEntries_succ_of mem enc _ p name o c u f _ hname ho hc hu hf hes

/-! ## The signature -/

theorem parseBody_signature (api : Crypto.BCrypt) (mem : List u8) (fileSize : Nat)
    (s : FArcSignature) (a : FArc) (h : parseBody api mem fileSize s = .ok a) :
    a.Signature = s := by
  unfold parseBody at h
  split at h
  · split at h
    · cases h
    · split at h
      · cases h
        rfl
      · cases h
  · cases h

theorem parseBody_ok (api : Crypto.BCrypt) (mem : List u8) (fileSize : Nat)
    (s : FArcSignature) (a : FArc) (h : parseBody api mem fileSize s = .ok a) :
    ∃ farcFlags mem' readHead entries,
      readU32 mem 8 = .ok farcFlags ∧ 12 + 4 ≤ mem.length ∧
      decryptStep api mem fileSize (FArcFlags.ofU32 farcFlags) = .ok (mem', readHead) ∧
      parseTable mem' (FArcFlags.ofU32 farcFlags).Encrypted readHead = .ok entries ∧
      a = { FileContent := some mem', FileSize := fileSize, Signature := s,
            Flags := FArcFlags.ofU32 farcFlags, Entries := entries } := by
  unfold parseBody at h
  split at h
  · rename_i hs ff un h4 h8 h12
    split at h
    · cases h
    · rename_i mem' readHead hd
      split at h
      · rename_i entries ht
        cases h
        exact ⟨ff, mem', readHead, entries, h8, readU32_le _ _ _ h12, hd, ht, rfl⟩
      · cases h
  · cases h

theorem be32_eq_iff (b0 b1 b2 b3 c0 c1 c2 c3 : u8) :
    be32 b0 b1 b2 b3 = be32 c0 c1 c2 c3 ↔ [b0, b1, b2, b3] = [c0, c1, c2, c3] := by
  constructor
  · intro h
    unfold be32 at h
    have h0 : b0 = c0 := Fin.ext (by omega)
    have h1 : b1 = c1 := Fin.ext (by omega)
    have h2 : b2 = c2 := Fin.ext (by omega)
    have h3 : b3 = c3 := Fin.ext (by omega)
    rw [h0, h1, h2, h3]
  · intro h
    injection h with h0 h
    injection h with h1 h
    injection h with h2 h
    injection h with h3 h
    rw [h0, h1, h2, h3]

theorem signatureOfU32_be32 (b0 b1 b2 b3 : u8) :
    (signatureOfU32 (be32 b0 b1 b2 b3) = .FArC ↔ [b0, b1, b2, b3] = tagFArC) ∧
    (signatureOfU32 (be32 b0 b1 b2 b3) = .FARC ↔ [b0, b1, b2, b3] = tagFARC) ∧
    (signatureOfU32 (be32 b0 b1 b2 b3) = .FARc ↔ [b0, b1, b2, b3] = tagFARc) := by
  have k1 : be32 b0 b1 b2 b3 = 0x46417243 ↔ [b0, b1, b2, b3] = tagFArC :=
    be32_eq_iff b0 b1 b2 b3 0x46 0x41 0x72 0x43
  have k2 : be32 b0 b1 b2 b3 = 0x46415243 ↔ [b0, b1, b2, b3] = tagFARC :=
    be32_eq_iff b0 b1 b2 b3 0x46 0x41 0x52 0x43
  have k3 : be32 b0 b1 b2 b3 = 0x46415263 ↔ [b0, b1, b2, b3] = tagFARc :=
    be32_eq_iff b0 b1 b2 b3 0x46 0x41 0x52 0x63
  have d12 : tagFArC ≠ tagFARC := by decide
  have d13 : tagFArC ≠ tagFARc := by decide
  have d23 : tagFARC ≠ tagFARc := by decide
  unfold signatureOfU32
  simp only [k1, k2, k3]
  by_cases c1 : [b0, b1, b2, b3] = tagFArC
  · simp [c1, d12, d13]
  · by_cases c2 : [b0, b1, b2, b3] = tagFARC
    · simp [c2, d23, d12.symm]
    · by_cases c3 : [b0, b1, b2, b3] = tagFARc
      · simp [c3, d13.symm, d23.symm]
      · simp [c1, c2, c3]

theorem parse_cons4 (api : Crypto.BCrypt) (b0 b1 b2 b3 : u8) (rest : List u8) :
    OpenReadDecryptAndParseFArcEntries api (b0 :: b1 :: b2 :: b3 :: rest) =
      if signatureOfU32 (be32 b0 b1 b2 b3) = .Invalid then
        .ok { FileContent := some (b0 :: b1 :: b2 :: b3 :: rest),
              FileSize := (b0 :: b1 :: b2 :: b3 :: rest).length, Signature := .Invalid,
              Flags := FArcFlags.zero, Entries := [] }
      else parseBody api (b0 :: b1 :: b2 :: b3 :: rest) (b0 :: b1 :: b2 :: b3 :: rest).length
        (signatureOfU32 (be32 b0 b1 b2 b3)) := by
  simp [OpenReadDecryptAndParseFArcEntries, ReadEntireFile, readU32_cons4]

/-- C1: for every file of at least 4 bytes, every archive the parser returns has
signature FArC, FARC or FARc exactly when the first four bytes are the ASCII tag
of that name, and Invalid for every other 4-byte prefix; for those other
prefixes the parser does return, with the Invalid signature. -/
theorem C1_signature_detection (api : Crypto.BCrypt) (file : List u8) (hlen : 4 ≤ file.length) :
    (∀ a, OpenReadDecryptAndParseFArcEntries api file = .ok a →
      (a.Signature = .FArC ↔ file.take 4 = tagFArC) ∧
      (a.Signature = .FARC ↔ file.take 4 = tagFARC) ∧
      (a.Signature = .FARc ↔ file.take 4 = tagFARc) ∧
      (a.Signature = .Invalid ↔
        ¬ file.take 4 = tagFArC ∧ ¬ file.take 4 = tagFARC ∧ ¬ file.take 4 = tagFARc)) ∧
    (¬ file.take 4 = tagFArC → ¬ file.take 4 = tagFARC → ¬ file.take 4 = tagFARc →
      ∃ a, OpenReadDecryptAndParseFArcEntries api file = .ok a ∧ a.Signature = .Invalid) := by
  obtain ⟨b0, b1, b2, b3, rest, rfl⟩ := exists_cons4 file hlen
  obtain ⟨k1, k2, k3⟩ := signatureOfU32_be32 b0 b1 b2 b3
  have htake : (b0 :: b1 :: b2 :: b3 :: rest).take 4 = [b0, b1, b2, b3] := rfl
  rw [htake, parse_cons4]
  generalize signatureOfU32 (be32 b0 b1 b2 b3) = s at k1 k2 k3
  constructor
  · intro a ha
    have hsig : a.Signature = s := by
      split at ha
      · rename_i hinv
        cases ha
        exact hinv.symm
      · exact parseBody_signature _ _ _ _ _ ha
    rw [hsig, ← k1, ← k2, ← k3]
    cases s <;> simp
  · intro n1 n2 n3
    rw [← k1] at n1
    rw [← k2] at n2
    rw [← k3] at n3
    have hinv : s = .Invalid := by
      cases s <;> simp_all
    rw [if_pos hinv]
    exact ⟨_, rfl, rfl⟩

/-- C1 at the archive `emptyArchiveFile`, whose tag is `FArC`. -/
theorem C1_signature_detection_witness :
    4 ≤ emptyArchiveFile.length ∧
    ∃ a, OpenReadDecryptAndParseFArcEntries identityBCrypt emptyArchiveFile = .ok a ∧
      a.Signature = .FArC :=
  ⟨by decide, _, rfl,
    ((C1_signature_detection identityBCrypt emptyArchiveFile (by decide)).1 _ rfl).1.2 rfl⟩

/-! ## The parsed archive -/

theorem decryptStep_ok (api : Crypto.BCrypt) (mem : List u8) (fileSize : Nat) (flags : FArcFlags)
    (mem' : List u8) (readHead : Nat)
    (h : decryptStep api mem fileSize flags = .ok (mem', readHead)) :
    readHead = (if flags.Encrypted then 32 else 16) ∧
    mem' = (if flags.Encrypted then
      decryptedContent api mem fileSize ((mem.drop 16).take 16) else mem) := by
  unfold decryptStep at h
  split at h
  · rename_i henc
    split at h
    · rename_i iv hiv
      unfold loadBytes at hiv
      split at hiv
      · cases hiv
        cases h
        simp [henc, Crypto.Aes128IVSize]
      · cases hiv
    · cases h
  · rename_i henc
    cases h
    simp [henc]

theorem parseTable_ok (mem : List u8) (enc : Bool) (readHead : Nat) (es : List FArcFileEntry)
    (h : parseTable mem enc readHead = .ok es) :
    ∃ fileCount, readU32 mem (readHead + 8) = .ok fileCount ∧
      parseEntries mem enc fileCount (readHead + 16) = .ok es := by
  unfold parseTable at h
  split at h
  · rename_i a b n d ha hb hn hd
    exact ⟨n, hn, h⟩
  · cases h

theorem parse_ok_len (api : Crypto.BCrypt) (file : List u8) (a : FArc)
    (h : OpenReadDecryptAndParseFArcEntries api file = .ok a) : 4 ≤ file.length := by
  unfold OpenReadDecryptAndParseFArcEntries ReadEntireFile at h
  by_contra hc
  match file, hc with
  | [], _ => simp at h
  | [_], _ => simp [readU32, loadU32] at h
  | [_, _], _ => simp [readU32, loadU32] at h
  | [_, _, _], _ => simp [readU32, loadU32] at h
  | _ :: _ :: _ :: _ :: _, hc => simp at hc

theorem parse_ok_recognised (api : Crypto.BCrypt) (file : List u8) (a : FArc)
    (h : OpenReadDecryptAndParseFArcEntries api file = .ok a) (hs : a.Signature ≠ .Invalid) :
    ∃ farcFlags mem' readHead,
      readU32 file 8 = .ok farcFlags ∧
      decryptStep api file file.length (FArcFlags.ofU32 farcFlags) = .ok (mem', readHead) ∧
      parseTable mem' (FArcFlags.ofU32 farcFlags).Encrypted readHead = .ok a.Entries ∧
      a.FileContent = some mem' ∧ a.FileSize = file.length ∧
      a.Flags = FArcFlags.ofU32 farcFlags ∧ 16 ≤ file.length := by
  obtain ⟨b0, b1, b2, b3, rest, rfl⟩ := exists_cons4 file (parse_ok_len api file a h)
  rw [parse_cons4] at h
  split at h
  · cases h
    exact absurd rfl hs
  · obtain ⟨w, mem', rh, es, h8, h16, hd, ht, rfl⟩ := parseBody_ok _ _ _ _ _ h
    exact ⟨w, mem', rh, h8, hd, ht, rfl, rfl, rfl, h16⟩

theorem parseTable_ok_iff (mem : List u8) (enc : Bool) (readHead : Nat)
    (es : List FArcFileEntry) :
    parseTable mem enc readHead = .ok es ↔
      readHead + 16 ≤ mem.length ∧ ∃ fileCount, readU32 mem (readHead + 8) = .ok fileCount ∧
        parseEntries mem enc fileCount (readHead + 16) = .ok es := by
  constructor
  · intro h
    unfold parseTable at h
    split at h
    · rename_i a b n d ha hb hn hd
      have := readU32_le _ _ _ hd
      exact ⟨by omega, n, hn, h⟩
    · cases h
  · rintro ⟨hlen, n, hn, hes⟩
    obtain ⟨a, ha⟩ := readU32_of_le mem readHead (by omega)
    obtain ⟨b, hb⟩ := readU32_of_le mem (readHead + 4) (by omega)
    obtain ⟨d, hd⟩ := readU32_of_le mem (readHead + 12) (by omega)
    unfold parseTable
    simp only [ha, hb, hn, hd]
    exact hes

theorem parsed_false (r : EntryRecord) : EntryRecord.parsed false r = r.stored := by
  simp [EntryRecord.parsed, EntryRecord.stored]

theorem parsed_true_offset (r : EntryRecord) :
    (EntryRecord.parsed true r).Offset = (r.offset + 16) % 4294967296 := by
  simp [EntryRecord.parsed, Crypto.Aes128KeySize]

theorem parsed_false_offset (r : EntryRecord) :
    (EntryRecord.parsed false r).Offset = r.offset := by
  simp [EntryRecord.parsed]

theorem signatureOfU32_recognised (b0 b1 b2 b3 : u8)
    (h : [b0, b1, b2, b3] = tagFArC ∨ [b0, b1, b2, b3] = tagFARC ∨ [b0, b1, b2, b3] = tagFARc) :
    signatureOfU32 (be32 b0 b1 b2 b3) ≠ .Invalid := by
  obtain ⟨k1, k2, k3⟩ := signatureOfU32_be32 b0 b1 b2 b3
  rcases h with h | h | h
  · rw [k1.2 h]; decide
  · rw [k2.2 h]; decide
  · rw [k3.2 h]; decide

/-- C3: for every file that parses with a recognised signature, the number of
entries of the archive is the big-endian u32 at byte offset 24 of the buffer,
or at byte offset 40 of the decrypted buffer when the archive is encrypted:
the third 32-bit field after the 16-byte header prefix, or after the IV. -/
theorem C3_entry_count (api : Crypto.BCrypt) (file : List u8) (a : FArc)
    (h : OpenReadDecryptAndParseFArcEntries api file = .ok a) (hs : a.Signature ≠ .Invalid) :
    ∃ mem', a.FileContent = some mem' ∧
      mem' = (if a.Flags.Encrypted then
        decryptedContent api file file.length ((file.drop 16).take 16) else file) ∧
      readU32 mem' (if a.Flags.Encrypted then 40 else 24) = .ok a.Entries.length := by
  obtain ⟨w, mem', rh, _, hd, ht, hc, _, hf, _⟩ := parse_ok_recognised api file a h hs
  obtain ⟨hrh, hmem⟩ := decryptStep_ok _ _ _ _ _ _ hd
  obtain ⟨n, hn, hes⟩ := parseTable_ok _ _ _ _ ht
  obtain ⟨rs, rest, hlen, _, _, hmap⟩ := (parseEntries_ok_iff _ _ _ _ _).1 hes
  refine ⟨mem', hc, ?_, ?_⟩
  · rw [hf]
    exact hmem
  · have hcount : a.Entries.length = n := by rw [hmap, List.length_map, hlen]
    rw [hcount, hf, ← hn, hrh]
    split <;> rfl

/-- C3 at the archive `helloArchiveFile`, which declares one entry. -/
theorem C3_entry_count_witness :
    ∃ a, OpenReadDecryptAndParseFArcEntries identityBCrypt helloArchiveFile = .ok a ∧
      a.Signature ≠ .Invalid ∧ a.Entries.length = 1 ∧
      readU32 helloArchiveFile 24 = .ok a.Entries.length := by
  refine ⟨_, rfl, by decide, rfl, ?_⟩
  obtain ⟨mem', hc, hm, hr⟩ := C3_entry_count identityBCrypt helloArchiveFile _ rfl (by decide)
  rw [hm] at hr
  exact hr

/-- C2 (amended): in every archive parsed with a recognised signature the
entry table of the (decrypted) buffer is a sequence of well-formed records, one
per entry and in the same order; the Offset of an entry is the stored offset of
its record when the encrypted bit is clear, and the stored offset plus 16
reduced modulo 2^32 when it is set, which is the stored offset plus 16 whenever
that sum is below 2^32. -/
theorem C2_offset_law (api : Crypto.BCrypt) (file : List u8) (a : FArc)
    (h : OpenReadDecryptAndParseFArcEntries api file = .ok a) (hs : a.Signature ≠ .Invalid) :
    ∃ mem' rs rest, a.FileContent = some mem' ∧ (∀ r ∈ rs, r.WellFormed) ∧
      mem'.drop (if a.Flags.Encrypted then 48 else 32) = tableBytes rs ++ rest ∧
      a.Entries.length = rs.length ∧
      ∀ (i : Nat) (r : EntryRecord) (e : FArcFileEntry), rs[i]? = some r → a.Entries[i]? = some e →
        e.Offset = (if a.Flags.Encrypted then (r.offset + 16) % 4294967296 else r.offset) ∧
        (a.Flags.Encrypted = true → r.offset + 16 < 4294967296 → e.Offset = r.offset + 16) := by
  obtain ⟨w, mem', rh, _, hd, ht, hc, _, hf, _⟩ := parse_ok_recognised api file a h hs
  obtain ⟨hrh, _⟩ := decryptStep_ok _ _ _ _ _ _ hd
  obtain ⟨n, _, hes⟩ := parseTable_ok _ _ _ _ ht
  obtain ⟨rs, rest, _, hwf, hdrop, hmap⟩ := (parseEntries_ok_iff _ _ _ _ _).1 hes
  refine ⟨mem', rs, rest, hc, hwf, ?_, by rw [hmap, List.length_map], ?_⟩
  · rw [← hdrop, hrh, hf]
    split <;> rfl
  · intro i r e hr he
    rw [hmap, List.getElem?_map, hr] at he
    cases he
    rw [hf]
    cases henc : (FArcFlags.ofU32 w).Encrypted
    · simp [parsed_false_offset]
    · simp only [parsed_true_offset, if_true, true_and]
      intro _ hlt
      exact Nat.mod_eq_of_lt hlt

/-- C2 (amended) at the archive `wrappingOffsetFile`. -/
theorem C2_offset_law_witness :
    ∃ a, OpenReadDecryptAndParseFArcEntries identityBCrypt wrappingOffsetFile = .ok a ∧
      a.Signature ≠ .Invalid ∧ a.Flags.Encrypted = true ∧
      ∃ mem' rs rest, a.FileContent = some mem' ∧ (∀ r ∈ rs, r.WellFormed) ∧
        mem'.drop (if a.Flags.Encrypted then 48 else 32) = tableBytes rs ++ rest ∧
        a.Entries.length = rs.length ∧
        ∀ (i : Nat) (r : EntryRecord) (e : FArcFileEntry), rs[i]? = some r → a.Entries[i]? = some e →
          e.Offset = (if a.Flags.Encrypted then (r.offset + 16) % 4294967296 else r.offset) ∧
          (a.Flags.Encrypted = true → r.offset + 16 < 4294967296 → e.Offset = r.offset + 16) :=
  ⟨_, rfl, by decide, rfl, C2_offset_law identityBCrypt wrappingOffsetFile _ rfl (by decide)⟩

/-- C2 (as stated) fails: in this archive with the encrypted bit set, whose data
region decrypts to a table with one record of stored offset `0xFFFFFFF8`, the
parsed entry has Offset 8, not the stored offset plus 16. -/
theorem C2_counterexample :
    ∃ a e, OpenReadDecryptAndParseFArcEntries identityBCrypt wrappingOffsetFile = .ok a ∧
      a.Flags.Encrypted = true ∧
      a.FileContent.map (fun mem => mem.drop 48) =
        some (tableBytes [⟨[0x61], 0xFFFFFFF8, 0, 0, 0⟩] ++ List.replicate 14 0) ∧
      a.Entries = [e] ∧ e.Offset = 8 ∧ e.Offset ≠ 0xFFFFFFF8 + 16 :=
  ⟨_, _, rfl, rfl, rfl, rfl, rfl, by decide⟩

theorem parse_unencrypted_of_layout (api : Crypto.BCrypt) (file : List u8) (w : Nat)
    (hsig : file.take 4 = tagFArC ∨ file.take 4 = tagFARC ∨ file.take 4 = tagFARc)
    (hw : readU32 file 8 = .ok w) (henc : bit w 2 = false) (h32 : 32 ≤ file.length)
    (rs : List EntryRecord) (rest : List u8) (hwf : ∀ r ∈ rs, r.WellFormed)
    (hn : readU32 file 24 = .ok rs.length) (hdrop : file.drop 32 = tableBytes rs ++ rest) :
    ∃ s, s ≠ FArcSignature.Invalid ∧ OpenReadDecryptAndParseFArcEntries api file =
      .ok { FileContent := some file, FileSize := file.length, Signature := s,
            Flags := FArcFlags.ofU32 w, Entries := rs.map EntryRecord.stored } := by
  obtain ⟨b0, b1, b2, b3, rest0, rfl⟩ := exists_cons4 file (by omega)
  have hrec := signatureOfU32_recognised b0 b1 b2 b3 hsig
  have hE : (FArcFlags.ofU32 w).Encrypted = false := henc
  have hpf : EntryRecord.parsed false = EntryRecord.stored := funext parsed_false
  have hes : parseEntries (b0 :: b1 :: b2 :: b3 :: rest0) false rs.length (16 + 16) =
      .ok (rs.map EntryRecord.stored) := by
    rw [← hpf]
    exact (parseEntries_ok_iff _ _ _ _ _).2 ⟨rs, rest, rfl, hwf, hdrop, rfl⟩
  have ht := (parseTable_ok_iff (b0 :: b1 :: b2 :: b3 :: rest0) false 16 _).2 ⟨h32, _, hn, hes⟩
  obtain ⟨v4, h4⟩ := readU32_of_le (b0 :: b1 :: b2 :: b3 :: rest0) 4 (by omega)
  obtain ⟨v12, h12⟩ := readU32_of_le (b0 :: b1 :: b2 :: b3 :: rest0) 12 (by omega)
  refine ⟨signatureOfU32 (be32 b0 b1 b2 b3), hrec, ?_⟩
  rw [parse_cons4, if_neg hrec]
  unfold parseBody
  simp only [h4, hw, h12, decryptStep, hE, Bool.false_eq_true, if_false, ht]

/-- C4: for every unencrypted file with a recognised tag, the parser returns an
archive with entries `es` exactly when the file has at least 32 bytes, the
big-endian u32 at byte offset 24 is a number n, and from byte offset 32 on the
file holds n records one right after the other, each made of name bytes without
a zero byte, the zero terminator, and Offset, CompressedSize, UncompressedSize
and flags word as big-endian u32; `es` then lists the records in on-disk order
with these fields as stored. -/
theorem C4_unencrypted_layout (api : Crypto.BCrypt) (file : List u8) (w : Nat)
    (hsig : file.take 4 = tagFArC ∨ file.take 4 = tagFARC ∨ file.take 4 = tagFARc)
    (hw : readU32 file 8 = .ok w) (henc : bit w 2 = false) (es : List FArcFileEntry) :
    (∃ a, OpenReadDecryptAndParseFArcEntries api file = .ok a ∧ a.Entries = es) ↔
      (32 ≤ file.length ∧ ∃ rs rest, (∀ r ∈ rs, r.WellFormed) ∧
        readU32 file 24 = .ok rs.length ∧ file.drop 32 = tableBytes rs ++ rest ∧
        es = rs.map EntryRecord.stored) := by
  have hlen := readU32_le _ _ _ hw
  obtain ⟨b0, b1, b2, b3, rest0, rfl⟩ := exists_cons4 file (by omega)
  have hrec := signatureOfU32_recognised b0 b1 b2 b3 hsig
  have hE : (FArcFlags.ofU32 w).Encrypted = false := henc
  have hpf : EntryRecord.parsed false = EntryRecord.stored := funext parsed_false
  constructor
  · rintro ⟨a, ha, rfl⟩
    have hsa : a.Signature ≠ .Invalid := by
      rw [parse_cons4, if_neg hrec] at ha
      rw [parseBody_signature _ _ _ _ _ ha]
      exact hrec
    obtain ⟨w', mem', rh, hw', hd, ht, _, _, _, _⟩ := parse_ok_recognised api _ a ha hsa
    rw [hw] at hw'
    cases hw'
    obtain ⟨hrh, hmem⟩ := decryptStep_ok _ _ _ _ _ _ hd
    rw [hE] at hrh hmem ht
    simp only [Bool.false_eq_true, if_false] at hrh hmem
    subst hrh hmem
    obtain ⟨h32, n, hn, hes⟩ := (parseTable_ok_iff _ _ _ _).1 ht
    obtain ⟨rs, rest, hl, hwf, hdrop, hmap⟩ := (parseEntries_ok_iff _ _ _ _ _).1 hes
    subst hl
    rw [hpf] at hmap
    exact ⟨h32, rs, rest, hwf, hn, hdrop, hmap⟩
  · rintro ⟨h32, rs, rest, hwf, hn, hdrop, rfl⟩
    obtain ⟨s, _, hp⟩ := parse_unencrypted_of_layout api _ w hsig hw henc h32 rs rest hwf hn hdrop
    exact ⟨_, hp, rfl⟩

/-- C4 at the archive `helloArchiveFile`: its one record parses to the entry `a.txt`. -/
theorem C4_unencrypted_layout_witness :
    (helloArchiveFile.take 4 = tagFArC ∨ helloArchiveFile.take 4 = tagFARC ∨
      helloArchiveFile.take 4 = tagFARc) ∧
    readU32 helloArchiveFile 8 = .ok 0 ∧ bit 0 2 = false ∧
    ∃ a, OpenReadDecryptAndParseFArcEntries identityBCrypt helloArchiveFile = .ok a ∧
      a.Entries = [EntryRecord.stored ⟨[0x61, 0x2E, 0x74, 0x78, 0x74], 54, 5, 5, 0⟩] :=
  ⟨by decide, rfl, rfl,
    (C4_unencrypted_layout identityBCrypt helloArchiveFile 0 (by decide) rfl rfl _).2
      ⟨by decide, [⟨[0x61, 0x2E, 0x74, 0x78, 0x74], 54, 5, 5, 0⟩], [0x68, 0x65, 0x6C, 0x6C, 0x6F],
        by decide, rfl, rfl, rfl⟩⟩

/-! ## Decoding -/

theorem storeBytes_length (dst src : List u8) : (storeBytes dst src).length = dst.length := by
  unfold storeBytes
  rw [List.length_append, List.length_take, List.length_drop]
  omega

theorem storeBytes_full (dst src : List u8) (h : src.length = dst.length) :
    storeBytes dst src = src := by
  unfold storeBytes
  rw [← h, List.take_length, List.drop_eq_nil_of_le (by omega), List.append_nil]

theorem loadBytes_ok (mem : List u8) (p n : Nat) (bytes : List u8)
    (h : loadBytes mem p n = .ok bytes) :
    p + n ≤ mem.length ∧ bytes = (mem.drop p).take n ∧ bytes.length = n := by
  unfold loadBytes at h
  split at h
  · rename_i hle
    cases h
    refine ⟨hle, rfl, ?_⟩
    rw [List.length_take, List.length_drop]
    omega
  · cases h

theorem Decompress_GZip_ok (zlib : ZLIB) (zstd : ZSTD) (src : List u8) (inSize : Nat)
    (out : List u8) (outSize : Nat) :
    ∃ flag out', Compression.Decompress zlib zstd .GZip src inSize out outSize = .ok (flag, out') ∧
      out'.length = out.length := by
  unfold Compression.Decompress
  simp only
  split
  · exact ⟨_, _, rfl, rfl⟩
  · split
    · exact ⟨_, _, rfl, storeBytes_length _ _⟩
    · exact ⟨_, _, rfl, storeBytes_length _ _⟩

theorem Decompress_ZStd_ok (zlib : ZLIB) (zstd : ZSTD) (src : List u8) (inSize : Nat)
    (out : List u8) (outSize : Nat) :
    ∃ out', Compression.Decompress zlib zstd .ZStd src inSize out outSize = .ok (true, out') ∧
      out'.length = out.length := by
  unfold Compression.Decompress
  exact ⟨_, rfl, storeBytes_length _ _⟩

/-- Whenever the dispatch completes, the entry is the given one with a decoded
buffer of exactly `UncompressedSize` bytes. -/
theorem decodePayload_ok (zlib : ZLIB) (zstd : ZSTD) (mem : List u8) (e e' : FArcFileEntry)
    (rh : Nat) (h : decodePayload zlib zstd mem e rh = .ok e') :
    ∃ d, e' = { e with DecompressedFileContent := some d } ∧ d.length = e.UncompressedSize := by
  unfold decodePayload at h
  simp only at h
  split at h
  · obtain ⟨flag, out, ho, hl⟩ := Decompress_GZip_ok zlib zstd (mem.drop rh) e.CompressedSize
      (List.replicate e.UncompressedSize 0) e.UncompressedSize
    rw [ho] at h
    cases h
    exact ⟨out, rfl, by rw [hl, List.length_replicate]⟩
  · split at h
    · obtain ⟨out, ho, hl⟩ := Decompress_ZStd_ok zlib zstd (mem.drop rh) e.CompressedSize
        (List.replicate e.UncompressedSize 0) e.UncompressedSize
      rw [ho] at h
      cases h
      exact ⟨out, rfl, by rw [hl, List.length_replicate]⟩
    · split at h
      · cases h
        exact ⟨_, rfl, by rw [storeBytes_length, List.length_replicate]⟩
      · cases h

theorem decodeEntry_ok (zlib : ZLIB) (zstd : ZSTD) (mem : List u8) (e e' : FArcFileEntry)
    (h : decodeEntry zlib zstd mem e = .ok e') :
    ∃ rh, (skipChunkTable mem e).2 = .ok rh ∧ decodePayload zlib zstd mem e rh = .ok e' := by
  unfold decodeEntry at h
  split at h
  · cases h
  · rename_i rh hrh
    exact ⟨rh, hrh, h⟩

theorem decodeEntry_length (zlib : ZLIB) (zstd : ZSTD) (mem : List u8) (e e' : FArcFileEntry)
    (h : decodeEntry zlib zstd mem e = .ok e') :
    ∃ d, e' = { e with DecompressedFileContent := some d } ∧ d.length = e.UncompressedSize := by
  obtain ⟨rh, _, hp⟩ := decodeEntry_ok zlib zstd mem e e' h
  exact decodePayload_ok zlib zstd mem e e' rh hp

theorem decodeEntries_ok (zlib : ZLIB) (zstd : ZSTD) (mem : List u8)
    (es es' : List FArcFileEntry) (h : decodeEntries zlib zstd mem es = .ok es') :
    List.Forall₂ (fun e e' => decodeEntry zlib zstd mem e = .ok e') es es' := by
  induction es generalizing es' with
  | nil =>
    unfold decodeEntries at h
    cases h
    exact List.Forall₂.nil
  | cons e es ih =>
    unfold decodeEntries at h
    split at h
    · cases h
    · rename_i d hd
      split at h
      · rename_i others ho
        cases h
        exact List.Forall₂.cons hd (ih _ ho)
      · cases h

theorem decodeEntries_of (zlib : ZLIB) (zstd : ZSTD) (mem : List u8)
    (es es' : List FArcFileEntry)
    (h : List.Forall₂ (fun e e' => decodeEntry zlib zstd mem e = .ok e') es es') :
    decodeEntries zlib zstd mem es = .ok es' := by
  induction h with
  | nil => rfl
  | cons hd _ ih =>
    unfold decodeEntries
    simp only [hd, ih]

theorem forall₂_getElem? {α β : Type} (R : α → β → Prop) (xs : List α) (ys : List β)
    (h : List.Forall₂ R xs ys) (i : Nat) (x : α) (hx : xs[i]? = some x) :
    ∃ y, ys[i]? = some y ∧ R x y := by
  induction h generalizing i with
  | nil => simp at hx
  | cons hr _ ih =>
    cases i with
    | zero =>
      simp only [List.getElem?_cons_zero, Option.some.injEq] at hx
      subst hx
      exact ⟨_, by simp, hr⟩
    | succ i =>
      simp only [List.getElem?_cons_succ] at hx ⊢
      exact ih i hx

theorem forall₂_mem_right {α β : Type} (R : α → β → Prop) (xs : List α) (ys : List β)
    (h : List.Forall₂ R xs ys) (y : β) (hy : y ∈ ys) : ∃ x, x ∈ xs ∧ R x y := by
  induction h with
  | nil => simp at hy
  | cons hr _ ih =>
    rcases List.mem_cons.1 hy with e | e
    · subst e
      exact ⟨_, List.mem_cons_self _ _, hr⟩
    · obtain ⟨x, hx, hxy⟩ := ih e
      exact ⟨x, List.mem_cons_of_mem _ hx, hxy⟩

/-- The two ways in which `ReadAndDecompressAllFArcEntries` returns. -/
theorem ReadAndDecompress_ok (zlib : ZLIB) (zstd : ZSTD) (a a' : FArc) (r : Bool)
    (h : ReadAndDecompressAllFArcEntries zlib zstd a = .ok (r, a')) :
    (r = false ∧ a' = a ∧ (a.FileContent = none ∨ a.FileSize < 16)) ∨
    (r = true ∧ ∃ mem es', a.FileContent = some mem ∧ 16 ≤ a.FileSize ∧
      decodeEntries zlib zstd mem a.Entries = .ok es' ∧ a' = { a with Entries := es' }) := by
  unfold ReadAndDecompressAllFArcEntries at h
  split at h
  · rename_i hn
    cases h
    exact Or.inl ⟨rfl, rfl, Or.inl hn⟩
  · rename_i mem hm
    split at h
    · rename_i hlt
      cases h
      exact Or.inl ⟨rfl, rfl, Or.inr hlt⟩
    · rename_i hge
      split at h
      · rename_i es' hes
        cases h
        exact Or.inr ⟨rfl, mem, es', hm, by omega, hes, rfl⟩
      · cases h

theorem ReadAndDecompress_of_decodeEntries (zlib : ZLIB) (zstd : ZSTD) (a : FArc)
    (mem : List u8) (es' : List FArcFileEntry) (hm : a.FileContent = some mem)
    (h16 : 16 ≤ a.FileSize) (hes : decodeEntries zlib zstd mem a.Entries = .ok es') :
    ReadAndDecompressAllFArcEntries zlib zstd a = .ok (true, { a with Entries := es' }) := by
  unfold ReadAndDecompressAllFArcEntries
  rw [hm]
  simp only
  rw [if_neg (by omega), hes]

/-- What every archive returned by the parser satisfies: the buffer is present,
the size is that of the file, an archive with entries has at least 16 bytes,
and no entry has a decoded buffer yet. -/
theorem parse_ok_shape (api : Crypto.BCrypt) (file : List u8) (a : FArc)
    (h : OpenReadDecryptAndParseFArcEntries api file = .ok a) :
    (∃ mem, a.FileContent = some mem) ∧ a.FileSize = file.length ∧
      (a.Entries = [] ∨ 16 ≤ a.FileSize) ∧
      ∀ e ∈ a.Entries, e.DecompressedFileContent = none := by
  by_cases hs : a.Signature = .Invalid
  · obtain ⟨b0, b1, b2, b3, rest, rfl⟩ := exists_cons4 file (parse_ok_len api file a h)
    rw [parse_cons4] at h
    split at h
    · cases h
      exact ⟨⟨_, rfl⟩, rfl, Or.inl rfl, by simp⟩
    · rename_i hne
      rw [parseBody_signature _ _ _ _ _ h] at hs
      exact absurd hs hne
  · obtain ⟨w, mem', rh, _, _, ht, hc, hsz, _, h16⟩ := parse_ok_recognised api file a h hs
    obtain ⟨n, _, hes⟩ := parseTable_ok _ _ _ _ ht
    obtain ⟨rs, rest, _, _, _, hmap⟩ := (parseEntries_ok_iff _ _ _ _ _).1 hes
    refine ⟨⟨mem', hc⟩, hsz, Or.inr (by omega), ?_⟩
    intro e he
    rw [hmap] at he
    obtain ⟨r, _, rfl⟩ := List.mem_map.1 he
    rfl

theorem decodeEntry_stored (zlib : ZLIB) (zstd : ZSTD) (mem : List u8) (e : FArcFileEntry)
    (hg : e.Flags.GZipCompressed = false) (hz : e.Flags.ZStdCompressed = false)
    (hs : e.Flags.SplitChunks = false) (hin : e.Offset + e.UncompressedSize ≤ mem.length) :
    decodeEntry zlib zstd mem e = .ok { e with
      DecompressedFileContent := some ((mem.drop e.Offset).take e.UncompressedSize) } := by
  have hl : ((mem.drop e.Offset).take e.UncompressedSize).length =
      (List.replicate e.UncompressedSize (0 : u8)).length := by
    rw [List.length_take, List.length_drop, List.length_replicate]
    omega
  unfold decodeEntry skipChunkTable decodePayload loadBytes
  simp only [hs, hg, hz, Bool.false_eq_true, if_false, hin, if_true]
  rw [storeBytes_full _ _ hl]

/-- C5: in every parsed archive, for every entry with neither the gzip nor the
zstd bit and without splitChunks whose region offset..offset+uncompressedSize
lies inside the buffer, the loop body of ReadAndDecompressAllFArcEntries
completes with a decoded buffer equal to the bytes of the buffer at
[offset, offset + uncompressedSize), and whenever the function returns it
returns true with that decoded buffer in the entry at the same position. -/
theorem C5_stored_entry_copy (api : Crypto.BCrypt) (zlib : ZLIB) (zstd : ZSTD) (file : List u8)
    (a : FArc) (mem : List u8) (i : Nat) (e : FArcFileEntry)
    (hp : OpenReadDecryptAndParseFArcEntries api file = .ok a)
    (hmem : a.FileContent = some mem) (hi : a.Entries[i]? = some e)
    (hg : e.Flags.GZipCompressed = false) (hz : e.Flags.ZStdCompressed = false)
    (hs : e.Flags.SplitChunks = false) (hin : e.Offset + e.UncompressedSize ≤ mem.length) :
    decodeEntry zlib zstd mem e = .ok { e with
      DecompressedFileContent := some ((mem.drop e.Offset).take e.UncompressedSize) } ∧
    ∀ r a', ReadAndDecompressAllFArcEntries zlib zstd a = .ok (r, a') →
      r = true ∧ ∃ e', a'.Entries[i]? = some e' ∧
        e'.DecompressedFileContent = some ((mem.drop e.Offset).take e.UncompressedSize) := by
  have hd := decodeEntry_stored zlib zstd mem e hg hz hs hin
  refine ⟨hd, ?_⟩
  intro r a' hr
  obtain ⟨_, _, hne, _⟩ := parse_ok_shape api file a hp
  rcases ReadAndDecompress_ok zlib zstd a a' r hr with ⟨_, _, hbad⟩ | ⟨hr, mem2, es', hm2, _, hes, ha'⟩
  · exfalso
    rcases hbad with hnone | hlt
    · rw [hmem] at hnone
      cases hnone
    · rcases hne with hnil | hge
      · rw [hnil] at hi
        simp at hi
      · omega
  · rw [hmem] at hm2
    cases hm2
    obtain ⟨e', he', hee⟩ := forall₂_getElem? _ _ _ (decodeEntries_ok zlib zstd mem _ _ hes) i e hi
    rw [hd] at hee
    cases hee
    refine ⟨hr, { e with
      DecompressedFileContent := some ((mem.drop e.Offset).take e.UncompressedSize) }, ?_, rfl⟩
    rw [ha']
    exact he'

/-- C5 at the archive `helloArchiveFile`: the entry `a.txt` decodes to `hello`. -/
theorem C5_stored_entry_copy_witness :
    ∃ a a' e e', OpenReadDecryptAndParseFArcEntries identityBCrypt helloArchiveFile = .ok a ∧
      a.FileContent = some helloArchiveFile ∧ a.Entries[0]? = some e ∧
      e.Flags.GZipCompressed = false ∧ e.Flags.ZStdCompressed = false ∧
      e.Flags.SplitChunks = false ∧ e.Offset + e.UncompressedSize ≤ helloArchiveFile.length ∧
      ReadAndDecompressAllFArcEntries idleZLIB idleZSTD a = .ok (true, a') ∧
      a'.Entries[0]? = some e' ∧
      e'.DecompressedFileContent = some [0x68, 0x65, 0x6C, 0x6C, 0x6F] := by
  refine ⟨_, _, _, _, rfl, rfl, rfl, rfl, rfl, rfl, by decide, rfl, rfl, ?_⟩
  have h := (C5_stored_entry_copy identityBCrypt idleZLIB idleZSTD helloArchiveFile _
    helloArchiveFile 0 _ rfl rfl rfl rfl rfl rfl (by decide)).2 true _ rfl
  obtain ⟨_, e', he', hd⟩ := h
  cases he'
  exact hd

/-- C6: for every entry of a parsed archive, whenever the loop body of
ReadAndDecompressAllFArcEntries completes for the entry, the entry holds a
decoded buffer of exactly UncompressedSize bytes and is otherwise unchanged;
and in the archive the function returns, every decoded buffer that is present
has exactly the UncompressedSize of its entry as length. -/
theorem C6_decoded_length (api : Crypto.BCrypt) (zlib : ZLIB) (zstd : ZSTD) (file : List u8)
    (a : FArc) (hp : OpenReadDecryptAndParseFArcEntries api file = .ok a) :
    (∀ mem e e', a.FileContent = some mem → e ∈ a.Entries →
      decodeEntry zlib zstd mem e = .ok e' →
      ∃ d, e' = { e with DecompressedFileContent := some d } ∧ d.length = e.UncompressedSize) ∧
    (∀ r a', ReadAndDecompressAllFArcEntries zlib zstd a = .ok (r, a') →
      ∀ e' ∈ a'.Entries, ∀ d, e'.DecompressedFileContent = some d →
        d.length = e'.UncompressedSize) := by
  constructor
  · intro mem e e' _ _ hd
    exact decodeEntry_length zlib zstd mem e e' hd
  · intro r a' hr e' he' d hd
    obtain ⟨_, _, _, hnone⟩ := parse_ok_shape api file a hp
    rcases ReadAndDecompress_ok zlib zstd a a' r hr with ⟨_, ha', _⟩ | ⟨_, mem, es', _, _, hes, ha'⟩
    · rw [ha'] at he'
      rw [hnone e' he'] at hd
      cases hd
    · rw [ha'] at he'
      obtain ⟨e, _, hee⟩ := forall₂_mem_right _ _ _ (decodeEntries_ok zlib zstd mem _ _ hes) e' he'
      obtain ⟨d', rfl, hl⟩ := decodeEntry_length zlib zstd mem e e' hee
      cases hd
      exact hl

/-- C6 at the archive `helloArchiveFile`. -/
theorem C6_decoded_length_witness :
    ∃ a a', OpenReadDecryptAndParseFArcEntries identityBCrypt helloArchiveFile = .ok a ∧
      ReadAndDecompressAllFArcEntries idleZLIB idleZSTD a = .ok (true, a') ∧
      ∀ e' ∈ a'.Entries, ∀ d, e'.DecompressedFileContent = some d →
        d.length = e'.UncompressedSize :=
  ⟨_, _, rfl, rfl,
    (C6_decoded_length identityBCrypt idleZLIB idleZSTD helloArchiveFile _ rfl).2 true _ rfl⟩

/-- C7, the code at a failing input: the gzip entry `a` declares 8 bytes and
the codec stores 2 bytes and reports a data error; the decoded buffer of `a` is
nevertheless present (the 2 bytes and 6 zero bytes), the function returns
true, and extraction writes `out/a` with those 8 bytes next to `out/b`. -/
theorem C7_failed_inflate_is_extracted :
    ∃ a a', OpenReadDecryptAndParseFArcEntries identityBCrypt gzipArchiveFile = .ok a ∧
      ReadAndDecompressAllFArcEntries failingZLIB idleZSTD a = .ok (true, a') ∧
      a'.Entries.map (fun e => e.DecompressedFileContent) =
        [some [0xAA, 0xBB, 0, 0, 0, 0, 0, 0], some [0x68, 0x65, 0x6C, 0x6C, 0x6F]] ∧
      ExtractWriteAllFArcEntriesIntoDirectory permissiveFileSystem a' outDirectory =
        .ok (true, [([0x6F, 0x75, 0x74, 0x2F, 0x61], [0xAA, 0xBB, 0, 0, 0, 0, 0, 0]),
          ([0x6F, 0x75, 0x74, 0x2F, 0x62], [0x68, 0x65, 0x6C, 0x6C, 0x6F])]) :=
  ⟨_, _, rfl, rfl, rfl, rfl⟩

/-! ## The chunk table -/

theorem scanChunkTable_count (mem : List u8) (limit readHead remaining : Nat) :
    (scanChunkTable mem limit readHead remaining).1 ≤ limit ∧
    ∀ rh rem, (scanChunkTable mem limit readHead remaining).2 = .ok (rh, rem) →
      rh = readHead + 4 * (scanChunkTable mem limit readHead remaining).1 := by
  induction limit generalizing readHead remaining with
  | zero =>
    unfold scanChunkTable
    refine ⟨Nat.le_refl _, ?_⟩
    intro rh rem h
    cases h
    rfl
  | succ limit ih =>
    unfold scanChunkTable
    split
    · refine ⟨by omega, ?_⟩
      intro rh rem h
      cases h
    · rename_i chunkSize _
      simp only
      split
      · refine ⟨by omega, ?_⟩
        intro rh rem h
        cases h
        rfl
      · obtain ⟨h1, h2⟩ := ih (readHead + 4) (subU32 remaining (chunkSize + 4))
        refine ⟨by omega, ?_⟩
        intro rh rem h
        have := h2 rh rem h
        omega

/-- C8: for every entry and every buffer content, the chunk-table scan loads at
most 16384 chunk-size values before it stops, and when it stops without
leaving the buffer the read head stands right after the lead value and the
values loaded (at the entry's offset when the entry has no chunk table).  The
scan is a total function of buffer and entry. -/
theorem C8_chunk_scan_bounded (mem : List u8) (e : FArcFileEntry) :
    (skipChunkTable mem e).1 ≤ 16384 ∧
    ∀ rh, (skipChunkTable mem e).2 = .ok rh →
      rh = if e.Flags.SplitChunks then e.Offset + 4 + 4 * (skipChunkTable mem e).1
        else e.Offset := by
  unfold skipChunkTable
  split
  · split
    · refine ⟨by omega, ?_⟩
      intro rh h
      cases h
    · obtain ⟨h1, h2⟩ := scanChunkTable_count mem 0x4000 (e.Offset + 4)
        (subU32 e.CompressedSize 4)
      generalize scanChunkTable mem 0x4000 (e.Offset + 4) (subU32 e.CompressedSize 4) = sc
        at h1 h2 ⊢
      obtain ⟨count, res⟩ := sc
      cases res with
      | error f =>
        refine ⟨h1, ?_⟩
        intro rh h
        cases h
      | ok p =>
        obtain ⟨rh', rem'⟩ := p
        refine ⟨h1, ?_⟩
        intro rh h
        cases h
        exact h2 _ rem' rfl
  · refine ⟨by omega, ?_⟩
    intro rh h
    cases h
    rfl

theorem loadU32_zero_tail (pre : List u8) (N p : Nat) (hp : pre.length ≤ p)
    (h : p + 4 ≤ pre.length + N) : loadU32 (pre ++ List.replicate N 0) p = .ok 0 := by
  have hd : (pre ++ List.replicate N (0 : u8)).drop p =
      0 :: 0 :: 0 :: 0 :: List.replicate (N - (p - pre.length) - 4) 0 := by
    rw [List.drop_append_eq_append_drop, List.drop_eq_nil_of_le hp, List.nil_append,
      List.drop_replicate]
    have e : N - (p - pre.length) = (N - (p - pre.length) - 4) + 4 := by omega
    rw [e]
    simp [List.replicate_succ]
  unfold loadU32
  rw [hd]
  rfl

theorem scanChunkTable_zero_tail (pre : List u8) (N : Nat) :
    ∀ limit rh rem, pre.length ≤ rh → rh + 4 * limit ≤ pre.length + N → rem < 4294967296 →
      4 * limit + 4 < rem →
      scanChunkTable (pre ++ List.replicate N 0) limit rh rem =
        (limit, .ok (rh + 4 * limit, rem - 4 * limit)) := by
  intro limit
  induction limit with
  | zero =>
    intro rh rem _ _ _ _
    rfl
  | succ limit ih =>
    intro rh rem h1 h2 h3 h4
    have hsub : subU32 rem (0 + 4) = rem - 4 := by
      unfold subU32
      omega
    unfold scanChunkTable
    rw [loadU32_zero_tail pre N rh h1 (by omega)]
    simp only [hsub]
    rw [if_neg (by omega), ih (rh + 4) (rem - 4) (by omega) (by omega) (by omega) (by omega)]
    simp only [Prod.mk.injEq, Except.ok.injEq, true_and]
    omega

theorem decodePayload_total (zlib : ZLIB) (zstd : ZSTD) (mem : List u8) (e : FArcFileEntry)
    (rh : Nat)
    (h : e.Flags.GZipCompressed = true ∨ e.Flags.ZStdCompressed = true ∨
      rh + e.UncompressedSize ≤ mem.length) :
    ∃ e', decodePayload zlib zstd mem e rh = .ok e' := by
  unfold decodePayload
  simp only
  split
  · obtain ⟨flag, out, ho, _⟩ := Decompress_GZip_ok zlib zstd (mem.drop rh) e.CompressedSize
      (List.replicate e.UncompressedSize 0) e.UncompressedSize
    rw [ho]
    exact ⟨_, rfl⟩
  · rename_i hg
    split
    · obtain ⟨out, ho, _⟩ := Decompress_ZStd_ok zlib zstd (mem.drop rh) e.CompressedSize
        (List.replicate e.UncompressedSize 0) e.UncompressedSize
      rw [ho]
      exact ⟨_, rfl⟩
    · rename_i hz
      have hin : rh + e.UncompressedSize ≤ mem.length := by
        rcases h with h | h | h
        · exact absurd h hg
        · exact absurd h hz
        · exact h
      unfold loadBytes
      rw [if_pos hin]
      exact ⟨_, rfl⟩

theorem skipChunkTable_of_scan (mem : List u8) (e : FArcFileEntry)
    (lead count rh rem : Nat) (hs : e.Flags.SplitChunks = true)
    (hlead : loadU32 mem e.Offset = .ok lead)
    (hscan : scanChunkTable mem 0x4000 (e.Offset + 4) (subU32 e.CompressedSize 4) =
      (count, .ok (rh, rem))) :
    skipChunkTable mem e = (count, .ok rh) := by
  unfold skipChunkTable
  simp only [hs, if_true, hlead, hscan]

theorem decodeEntry_of_scan (zlib : ZLIB) (zstd : ZSTD) (mem : List u8) (e : FArcFileEntry)
    (lead count rh rem : Nat) (hs : e.Flags.SplitChunks = true)
    (hlead : loadU32 mem e.Offset = .ok lead)
    (hscan : scanChunkTable mem 0x4000 (e.Offset + 4) (subU32 e.CompressedSize 4) =
      (count, .ok (rh, rem))) :
    decodeEntry zlib zstd mem e = decodePayload zlib zstd mem e rh := by
  unfold decodeEntry skipChunkTable
  simp only [hs, if_true, hlead, hscan]

theorem loadBytes_zero_tail (pre : List u8) (N p n : Nat) (hp : pre.length ≤ p)
    (h : p + n ≤ pre.length + N) :
    loadBytes (pre ++ List.replicate N 0) p n = .ok (List.replicate n 0) := by
  unfold loadBytes
  rw [if_pos (by rw [List.length_append, List.length_replicate]; exact h),
    List.drop_append_eq_append_drop, List.drop_eq_nil_of_le hp, List.nil_append,
    List.drop_replicate, List.take_replicate]
  congr 2
  omega

theorem saturated_file_eq :
    saturatedChunkTableFile =
      (tagFArC ++ List.replicate 20 0 ++ [0, 0, 0, 1] ++ [0, 0, 0, 0] ++
        tableBytes [⟨[0x61], 50, 1048576, 1, 16⟩]) ++ List.replicate 65541 0 := by
  unfold saturatedChunkTableFile
  simp only [List.append_assoc]

theorem saturated_length : saturatedChunkTableFile.length = 65591 := by
  rw [saturated_file_eq, List.length_append, List.length_replicate]
  rfl

theorem saturated_lead : loadU32 saturatedChunkTableFile saturatedEntry.Offset = .ok 0 := by
  rw [saturated_file_eq]
  exact loadU32_zero_tail _ 65541 50 (by decide) (by decide)

theorem saturated_scan :
    scanChunkTable saturatedChunkTableFile 0x4000 (saturatedEntry.Offset + 4)
      (subU32 saturatedEntry.CompressedSize 4) = (16384, .ok (65590, 983036)) := by
  rw [saturated_file_eq]
  exact scanChunkTable_zero_tail _ 65541 16384 54 1048572 (by decide) (by decide) (by decide)
    (by decide)

theorem saturated_decode (zlib : ZLIB) (zstd : ZSTD) :
    decodeEntry zlib zstd saturatedChunkTableFile saturatedEntry =
      .ok { saturatedEntry with DecompressedFileContent := some [0] } := by
  rw [decodeEntry_of_scan zlib zstd _ _ 0 16384 65590 983036 rfl saturated_lead saturated_scan]
  have hl : loadBytes saturatedChunkTableFile 65590 1 = .ok [0] := by
    rw [saturated_file_eq]
    exact loadBytes_zero_tail _ 65541 65590 1 (by decide) (by decide)
  unfold decodePayload
  have h1 : saturatedEntry.Flags.GZipCompressed = false := rfl
  have h2 : saturatedEntry.Flags.ZStdCompressed = false := rfl
  have h3 : saturatedEntry.UncompressedSize = 1 := rfl
  simp only [h1, h2, h3, Bool.false_eq_true, if_false, hl]
  rfl

theorem saturated_parse (api : Crypto.BCrypt) :
    ∃ s, s ≠ FArcSignature.Invalid ∧
      OpenReadDecryptAndParseFArcEntries api saturatedChunkTableFile =
        .ok { FileContent := some saturatedChunkTableFile,
              FileSize := saturatedChunkTableFile.length, Signature := s,
              Flags := FArcFlags.ofU32 0, Entries := [saturatedEntry] } :=
  parse_unencrypted_of_layout api saturatedChunkTableFile 0 (Or.inl rfl) rfl rfl
    (by rw [saturated_length]; decide) [⟨[0x61], 50, 1048576, 1, 16⟩] (List.replicate 65541 0)
    (by decide) rfl rfl

/-- C9 (amended): for every splitChunks entry whose chunk-table scan performs
all 16384 iterations and leaves the remaining-compressed-size counter above 4,
the scan stops at the safety limit with the read head at offset + 4 + 65536 and
decoding goes on from there as for any entry: the payload at the read head is
decompressed or copied, and a decoded buffer of UncompressedSize bytes is
produced (for a stored entry, when the bytes to copy lie inside the buffer). -/
theorem C9_limit_reached_decodes (zlib : ZLIB) (zstd : ZSTD) (mem : List u8)
    (e : FArcFileEntry) (lead rh rem : Nat) (hs : e.Flags.SplitChunks = true)
    (hlead : loadU32 mem e.Offset = .ok lead)
    (hscan : scanChunkTable mem 0x4000 (e.Offset + 4) (subU32 e.CompressedSize 4) =
      (16384, .ok (rh, rem)))
    (_hrem : 4 < rem) :
    rh = e.Offset + 4 + 4 * 16384 ∧
    decodeEntry zlib zstd mem e = decodePayload zlib zstd mem e rh ∧
    ((e.Flags.GZipCompressed = true ∨ e.Flags.ZStdCompressed = true ∨
        rh + e.UncompressedSize ≤ mem.length) →
      ∃ d, decodeEntry zlib zstd mem e = .ok { e with DecompressedFileContent := some d } ∧
        d.length = e.UncompressedSize) := by
  have hcount := (scanChunkTable_count mem 0x4000 (e.Offset + 4) (subU32 e.CompressedSize 4)).2
  rw [hscan] at hcount
  have hrh : rh = e.Offset + 4 + 4 * 16384 := hcount rh rem rfl
  have hdec : decodeEntry zlib zstd mem e = decodePayload zlib zstd mem e rh := by
    unfold decodeEntry skipChunkTable
    simp only [hs, if_true, hlead, hscan]
  refine ⟨hrh, hdec, ?_⟩
  intro hcase
  obtain ⟨e', he'⟩ := decodePayload_total zlib zstd mem e rh hcase
  obtain ⟨d, rfl, hl⟩ := decodePayload_ok zlib zstd mem e e' rh he'
  exact ⟨d, by rw [hdec, he'], hl⟩

/-- C9 (amended) at the archive `saturatedChunkTableFile`. -/
theorem C9_limit_reached_decodes_witness :
    saturatedEntry.Flags.SplitChunks = true ∧
    loadU32 saturatedChunkTableFile saturatedEntry.Offset = .ok 0 ∧
    scanChunkTable saturatedChunkTableFile 0x4000 (saturatedEntry.Offset + 4)
      (subU32 saturatedEntry.CompressedSize 4) = (16384, .ok (65590, 983036)) ∧
    4 < 983036 ∧
    ∃ d, decodeEntry idleZLIB idleZSTD saturatedChunkTableFile saturatedEntry =
        .ok { saturatedEntry with DecompressedFileContent := some d } ∧
      d.length = saturatedEntry.UncompressedSize :=
  ⟨rfl, saturated_lead, saturated_scan, by decide,
    (C9_limit_reached_decodes idleZLIB idleZSTD saturatedChunkTableFile saturatedEntry 0 65590
      983036 rfl saturated_lead saturated_scan (by decide)).2.2
      (Or.inr (Or.inr (by rw [saturated_length]; decide)))⟩

/-- C9 (as stated) fails: the parser returns this archive with one splitChunks
entry; the scan of its chunk table performs all 16384 iterations and leaves the
remaining-size counter at 983036, above 4; decoding the entry nevertheless
completes with a decoded buffer, the byte copied from behind the scanned
values, and ReadAndDecompressAllFArcEntries returns true. -/
theorem C9_counterexample :
    ∃ a, OpenReadDecryptAndParseFArcEntries identityBCrypt saturatedChunkTableFile = .ok a ∧
      a.FileContent = some saturatedChunkTableFile ∧ a.Entries = [saturatedEntry] ∧
      saturatedEntry.Flags.SplitChunks = true ∧
      scanChunkTable saturatedChunkTableFile 0x4000 (saturatedEntry.Offset + 4)
        (subU32 saturatedEntry.CompressedSize 4) = (16384, .ok (65590, 983036)) ∧
      4 < 983036 ∧
      decodeEntry idleZLIB idleZSTD saturatedChunkTableFile saturatedEntry =
        .ok { saturatedEntry with DecompressedFileContent := some [0] } ∧
      ReadAndDecompressAllFArcEntries idleZLIB idleZSTD a = .ok (true, { a with
        Entries := [{ saturatedEntry with DecompressedFileContent := some [0] }] }) := by
  obtain ⟨s, _, hp⟩ := saturated_parse identityBCrypt
  refine ⟨_, hp, rfl, rfl, rfl, saturated_scan, by decide, saturated_decode _ _, ?_⟩
  refine ReadAndDecompress_of_decodeEntries _ _ _ saturatedChunkTableFile _ rfl ?_ ?_
  · show 16 ≤ saturatedChunkTableFile.length
    rw [saturated_length]
    decide
  · exact decodeEntries_of _ _ _ _ _
      (List.Forall₂.cons (saturated_decode _ _) List.Forall₂.nil)

/-- C8 at the archive `saturatedChunkTableFile`: the scan loads exactly 16384
values and leaves the read head at 50 + 4 + 4 * 16384. -/
theorem C8_chunk_scan_bounded_witness :
    (skipChunkTable saturatedChunkTableFile saturatedEntry).1 = 16384 ∧
    (skipChunkTable saturatedChunkTableFile saturatedEntry).2 = .ok 65590 ∧
    65590 = (if saturatedEntry.Flags.SplitChunks then
      saturatedEntry.Offset + 4 + 4 * (skipChunkTable saturatedChunkTableFile saturatedEntry).1
      else saturatedEntry.Offset) := by
  have hskip : skipChunkTable saturatedChunkTableFile saturatedEntry = (16384, .ok 65590) :=
    skipChunkTable_of_scan _ _ 0 16384 65590 983036 rfl saturated_lead saturated_scan
  refine ⟨by rw [hskip], by rw [hskip], ?_⟩
  exact (C8_chunk_scan_bounded saturatedChunkTableFile saturatedEntry).2 65590 (by rw [hskip])

/-! ## Both compression bits -/

/-- C10 (amended): for every entry whose flags have both the gzipCompressed and
the zstdCompressed bit set, decoding takes the gzip branch: the decoded buffer
is the output buffer as the gzip call of `Compression::Decompress` leaves it,
and the result does not depend on the zstd library, which is not called. -/
theorem C10_both_bits_take_gzip (zlib : ZLIB) (zstd : ZSTD) (mem : List u8) (e : FArcFileEntry)
    (rh : Nat) (hg : e.Flags.GZipCompressed = true) (_hz : e.Flags.ZStdCompressed = true)
    (hrh : (skipChunkTable mem e).2 = .ok rh) :
    ∃ flag out,
      Compression.Decompress zlib zstd .GZip (mem.drop rh) e.CompressedSize
        (List.replicate e.UncompressedSize 0) e.UncompressedSize = .ok (flag, out) ∧
      out.length = e.UncompressedSize ∧
      decodeEntry zlib zstd mem e = .ok { e with DecompressedFileContent := some out } ∧
      ∀ zstd', decodeEntry zlib zstd' mem e = decodeEntry zlib zstd mem e := by
  obtain ⟨flag, out, ho, hl⟩ := Decompress_GZip_ok zlib zstd (mem.drop rh) e.CompressedSize
    (List.replicate e.UncompressedSize 0) e.UncompressedSize
  have hany : ∀ z, decodeEntry zlib z mem e =
      .ok { e with DecompressedFileContent := some out } := by
    intro z
    have hz' : Compression.Decompress zlib z .GZip (mem.drop rh) e.CompressedSize
        (List.replicate e.UncompressedSize 0) e.UncompressedSize = .ok (flag, out) := by
      rw [← ho]
      rfl
    unfold decodeEntry decodePayload
    simp only [hrh, hg, if_true, hz']
  refine ⟨flag, out, ho, ?_, hany zstd, ?_⟩
  · rw [hl, List.length_replicate]
  · intro zstd'
    rw [hany zstd', hany zstd]

/-- C10 (amended) at the entry `bothBitsEntry`. -/
theorem C10_both_bits_take_gzip_witness :
    bothBitsEntry.Flags.GZipCompressed = true ∧ bothBitsEntry.Flags.ZStdCompressed = true ∧
    (skipChunkTable [1, 2, 3, 4] bothBitsEntry).2 = .ok 0 ∧
    ∃ flag out,
      Compression.Decompress failingZLIB markingZSTD .GZip (List.drop 0 [1, 2, 3, 4])
        bothBitsEntry.CompressedSize (List.replicate bothBitsEntry.UncompressedSize 0)
        bothBitsEntry.UncompressedSize = .ok (flag, out) ∧
      out.length = bothBitsEntry.UncompressedSize ∧
      decodeEntry failingZLIB markingZSTD [1, 2, 3, 4] bothBitsEntry =
        .ok { bothBitsEntry with DecompressedFileContent := some out } ∧
      ∀ zstd', decodeEntry failingZLIB zstd' [1, 2, 3, 4] bothBitsEntry =
        decodeEntry failingZLIB markingZSTD [1, 2, 3, 4] bothBitsEntry :=
  ⟨rfl, rfl, rfl,
    C10_both_bits_take_gzip failingZLIB markingZSTD [1, 2, 3, 4] bothBitsEntry 0 rfl rfl rfl⟩

/-- C10 (as stated) fails: this entry has both bits set, and decoding it
completes with a decoded buffer, the two bytes stored by the gzip library. -/
theorem C10_counterexample :
    bothBitsEntry.Flags.GZipCompressed = true ∧ bothBitsEntry.Flags.ZStdCompressed = true ∧
    decodeEntry failingZLIB markingZSTD [1, 2, 3, 4] bothBitsEntry =
      .ok { bothBitsEntry with DecompressedFileContent := some [0xAA, 0xBB] } :=
  ⟨rfl, rfl, rfl⟩

/-! ## Reads outside the buffer -/

/-- C11, the code at two inputs.  In `overrunArchiveFile` the region the copy
needs, 54..154, extends past the 59 bytes of the buffer: the parser accepts the
archive, and the copy of ReadAndDecompressAllFArcEntries reads outside the
buffer; the function does not return false.  In `oversizedArchiveFile` offset
plus compressedSize is 1054: the archive is not rejected either, the entry is
decoded and the function returns true. -/
theorem C11_copy_reads_past_buffer :
    (∃ a e, OpenReadDecryptAndParseFArcEntries identityBCrypt overrunArchiveFile = .ok a ∧
      a.FileContent = some overrunArchiveFile ∧ a.Entries = [e] ∧
      overrunArchiveFile.length < e.Offset + e.UncompressedSize ∧
      decodeEntry idleZLIB idleZSTD overrunArchiveFile e = .error .outOfBounds ∧
      ReadAndDecompressAllFArcEntries idleZLIB idleZSTD a = .error .outOfBounds) ∧
    (∃ a a' e, OpenReadDecryptAndParseFArcEntries identityBCrypt oversizedArchiveFile = .ok a ∧
      a.Entries = [e] ∧ oversizedArchiveFile.length < e.Offset + e.CompressedSize ∧
      ReadAndDecompressAllFArcEntries idleZLIB idleZSTD a = .ok (true, a') ∧
      a'.Entries.map (fun x => x.DecompressedFileContent) =
        [some [0x68, 0x65, 0x6C, 0x6C, 0x6F]]) :=
  ⟨⟨_, _, rfl, rfl, rfl, by decide, rfl, rfl⟩, ⟨_, _, _, rfl, rfl, by decide, rfl, rfl⟩⟩

/-- C12, the code at two truncated inputs: a buffer that declares one entry and
ends at byte 32, and a buffer whose entry name has no zero terminator.  In both
the parser reads outside the buffer; it has no result that stands for a failed
parse. -/
theorem C12_truncated_table_reads_past_buffer :
    (truncatedArchiveFile.take 4 = tagFArC ∧ readU32 truncatedArchiveFile 24 = .ok 1 ∧
      truncatedArchiveFile.length = 32 ∧
      OpenReadDecryptAndParseFArcEntries identityBCrypt truncatedArchiveFile =
        .error .outOfBounds) ∧
    (unterminatedNameFile.take 4 = tagFArC ∧ readU32 unterminatedNameFile 24 = .ok 1 ∧
      (0 : u8) ∉ unterminatedNameFile.drop 32 ∧
      OpenReadDecryptAndParseFArcEntries identityBCrypt unterminatedNameFile =
        .error .outOfBounds) :=
  ⟨⟨rfl, rfl, rfl, rfl⟩, ⟨rfl, rfl, by decide, rfl⟩⟩

/-! ## The run -/

theorem parse_unrecognised (api : Crypto.BCrypt) (file : List u8) (hlen : 4 ≤ file.length)
    (h1 : ¬ file.take 4 = tagFArC) (h2 : ¬ file.take 4 = tagFARC)
    (h3 : ¬ file.take 4 = tagFARc) :
    OpenReadDecryptAndParseFArcEntries api file = .ok (unrecognisedArchive file) := by
  obtain ⟨b0, b1, b2, b3, rest, rfl⟩ := exists_cons4 file hlen
  obtain ⟨k1, k2, k3⟩ := signatureOfU32_be32 b0 b1 b2 b3
  have htake : (b0 :: b1 :: b2 :: b3 :: rest).take 4 = [b0, b1, b2, b3] := rfl
  rw [htake] at h1 h2 h3
  rw [← k1] at h1
  rw [← k2] at h2
  rw [← k3] at h3
  have hinv : signatureOfU32 (be32 b0 b1 b2 b3) = .Invalid := by
    revert h1 h2 h3
    cases signatureOfU32 (be32 b0 b1 b2 b3) <;> simp
  rw [parse_cons4, if_pos hinv]
  rfl

theorem ReadAndDecompress_no_entries (zlib : ZLIB) (zstd : ZSTD) (a : FArc) (mem : List u8)
    (hm : a.FileContent = some mem) (he : a.Entries = []) :
    ReadAndDecompressAllFArcEntries zlib zstd a = .ok (decide (16 ≤ a.FileSize), a) := by
  obtain ⟨content, size, sig, flags, entries⟩ := a
  simp only at hm he
  subst hm he
  unfold ReadAndDecompressAllFArcEntries
  simp only
  by_cases h : size < 16
  · rw [if_pos h]
    have : decide (16 ≤ size) = false := by simpa using h
    rw [this]
  · rw [if_neg h]
    have : decide (16 ≤ size) = true := by simpa using h
    rw [this]
    rfl

theorem Extract_invalid (fs : FileSystem) (a : FArc) (dir : List u8)
    (h : a.Signature = .Invalid) :
    ExtractWriteAllFArcEntriesIntoDirectory fs a dir = .ok (false, []) := by
  unfold ExtractWriteAllFArcEntriesIntoDirectory
  rw [if_pos (Or.inr h)]

/-- C13: for every buffer of at least four bytes whose first four bytes are not
a recognised tag, the parser returns the archive with signature Invalid, the
buffer as read, zero flags and no entries, whatever the crypto provider;
ExtractWriteAllFArcEntriesIntoDirectory returns false for it and writes no
file; and a run on such a file ends with the failure exit code and no file
written. -/
theorem C13_unrecognised_signature (api : Crypto.BCrypt) (zlib : ZLIB) (zstd : ZSTD)
    (fs : FileSystem) (disk : List u8 → List u8) (file : List u8) (hlen : 4 ≤ file.length)
    (h1 : ¬ file.take 4 = tagFArC) (h2 : ¬ file.take 4 = tagFARC)
    (h3 : ¬ file.take 4 = tagFARc) :
    OpenReadDecryptAndParseFArcEntries api file = .ok (unrecognisedArchive file) ∧
    (∀ dir, ExtractWriteAllFArcEntriesIntoDirectory fs (unrecognisedArchive file) dir =
      .ok (false, [])) ∧
    (∀ prog path rest, disk path = file →
      EntryPoint api zlib zstd fs disk (prog :: path :: rest) = .ok (EXIT_WIDEPEEPOSAD, [])) := by
  have hp := parse_unrecognised api file hlen h1 h2 h3
  refine ⟨hp, fun dir => Extract_invalid fs _ dir rfl, ?_⟩
  intro prog path rest hd
  unfold EntryPoint
  simp only [hd, hp]
  rw [ReadAndDecompress_no_entries zlib zstd (unrecognisedArchive file) file rfl rfl]
  by_cases h : 16 ≤ (unrecognisedArchive file).FileSize
  · have hdec : decide (16 ≤ (unrecognisedArchive file).FileSize) = true := by simpa using h
    rw [hdec]
    simp only
    rw [Extract_invalid fs _ _ rfl]
  · have hdec : decide (16 ≤ (unrecognisedArchive file).FileSize) = false := by simpa using h
    rw [hdec]

/-- C13 at the file `foreignFile`, read from the path `x.farc`. -/
theorem C13_unrecognised_signature_witness :
    4 ≤ foreignFile.length ∧ ¬ foreignFile.take 4 = tagFArC ∧ ¬ foreignFile.take 4 = tagFARC ∧
    ¬ foreignFile.take 4 = tagFARc ∧
    EntryPoint identityBCrypt idleZLIB idleZSTD permissiveFileSystem (fun _ => foreignFile)
      [[0x78], [0x78, 0x2E, 0x66, 0x61, 0x72, 0x63]] = .ok (EXIT_WIDEPEEPOSAD, []) :=
  ⟨by decide, by decide, by decide, by decide,
    (C13_unrecognised_signature identityBCrypt idleZLIB idleZSTD permissiveFileSystem
      (fun _ => foreignFile) foreignFile (by decide) (by decide) (by decide) (by decide)).2.2
      [0x78] [0x78, 0x2E, 0x66, 0x61, 0x72, 0x63] [] rfl⟩

/-! ## Decryption -/

/-- C14, the code at a failing input: on `encryptedArchiveFile` the provider
reports failure and stores nothing, `DecryptAes128Cbc` returns false, and the
parser still returns an archive whose buffer is the undecrypted file and whose
entry was read from the undecrypted bytes. -/
theorem C14_failed_decrypt_still_parses :
    (Crypto.DecryptAes128Cbc failingBCrypt (encryptedArchiveFile.drop 32)
      (encryptedArchiveFile.length - 32) fixedKeyBytes
      ((encryptedArchiveFile.drop 16).take 16)).1 = false ∧
    ∃ a, OpenReadDecryptAndParseFArcEntries failingBCrypt encryptedArchiveFile = .ok a ∧
      a.Flags.Encrypted = true ∧ a.FileContent = some encryptedArchiveFile ∧
      a.Entries = [EntryRecord.parsed true ⟨[0x61], 64, 5, 5, 0⟩] :=
  ⟨rfl, _, rfl, rfl, rfl, rfl⟩

theorem bit_eq_testBit (w i : Nat) : bit w i = w.testBit i := by
  unfold bit
  rw [Nat.testBit_to_div_mod]
  by_cases h : w / 2 ^ i % 2 = 1
  · simp [h]
  · simp [h]

/-- C15: for every word, the archive flags decoded from it have GZipCompressed,
Encrypted and ZStdCompressed equal to bits 1, 2 and 6 of the word, and the
entry flags decoded from it have GZipCompressed, Encrypted, SplitChunks and
ZStdCompressed equal to bits 1, 2, 4 and 5 (bit 0 the least significant), so
each named flag depends on its own bit only; the parser decodes the archive
flags from the big-endian word at byte offset 8 and the flags of each entry
from the flags word of its record. -/
theorem C15_flag_bits :
    (∀ w : Nat,
      (FArcFlags.ofU32 w).GZipCompressed = w.testBit 1 ∧
      (FArcFlags.ofU32 w).Encrypted = w.testBit 2 ∧
      (FArcFlags.ofU32 w).ZStdCompressed = w.testBit 6 ∧
      (FArcFileFlags.ofU32 w).GZipCompressed = w.testBit 1 ∧
      (FArcFileFlags.ofU32 w).Encrypted = w.testBit 2 ∧
      (FArcFileFlags.ofU32 w).SplitChunks = w.testBit 4 ∧
      (FArcFileFlags.ofU32 w).ZStdCompressed = w.testBit 5) ∧
    (∀ (api : Crypto.BCrypt) (file : List u8) (a : FArc),
      OpenReadDecryptAndParseFArcEntries api file = .ok a → a.Signature ≠ .Invalid →
      ∃ w, readU32 file 8 = .ok w ∧ a.Flags = FArcFlags.ofU32 w) ∧
    (∀ (enc : Bool) (r : EntryRecord),
      (EntryRecord.parsed enc r).Flags = FArcFileFlags.ofU32 r.flags) := by
  refine ⟨?_, ?_, ?_⟩
  · intro w
    simp only [FArcFlags.ofU32, FArcFileFlags.ofU32, bit_eq_testBit, and_self]
  · intro api file a hp hs
    obtain ⟨w, _, _, hw, _, _, _, _, hf, _⟩ := parse_ok_recognised api file a hp hs
    exact ⟨w, hw, hf⟩
  · intro enc r
    rfl

/-- C15 at the archive `encryptedArchiveFile`, whose flags word is 4. -/
theorem C15_flag_bits_witness :
    ∃ a, OpenReadDecryptAndParseFArcEntries identityBCrypt encryptedArchiveFile = .ok a ∧
      a.Signature ≠ .Invalid ∧ readU32 encryptedArchiveFile 8 = .ok 4 ∧
      a.Flags = FArcFlags.ofU32 4 ∧ a.Flags.Encrypted = Nat.testBit 4 2 := by
  refine ⟨_, rfl, by decide, rfl, ?_, ?_⟩
  · obtain ⟨w, hw, hf⟩ := C15_flag_bits.2.1 identityBCrypt encryptedArchiveFile _ rfl (by decide)
    have h4 : readU32 encryptedArchiveFile 8 = .ok 4 := rfl
    rw [h4] at hw
    cases hw
    exact hf
  · exact (C15_flag_bits.1 4).2.1

theorem fixedKey_eq :
    Crypto.ParseAes128KeyHexByteString "62EC7CD79141695E53592ACC10CDC04C" = fixedKeyBytes := by
  decide

theorem BCryptAes128Cbc_length (api : Crypto.BCrypt) (op : Crypto.Detail.Operation)
    (inData : List u8) (inSize : Nat) (outData : List u8) (outSize : Nat) (key iv : List u8) :
    (Crypto.Detail.BCryptAes128Cbc api op inData inSize outData outSize key iv).2.length =
      outData.length := by
  unfold Crypto.Detail.BCryptAes128Cbc
  split
  · split
    · split
      · split
        · exact storeBytes_length _ _
        · rfl
      · rfl
    · rfl
  · rfl

/-- When the four setup calls succeed, the size fits 32 bits and the provider
stores as many bytes as it was given, `DecryptAes128Cbc` reports the status of
the provider and leaves exactly the provider's output in the region. -/
theorem DecryptAes128Cbc_success (api : Crypto.BCrypt) (data key iv : List u8)
    (h1 : Crypto.NT_SUCCESS api.OpenAlgorithmProvider = true)
    (h2 : Crypto.NT_SUCCESS api.SetProperty = true)
    (h3 : Crypto.NT_SUCCESS api.GetProperty = true)
    (h4 : Crypto.NT_SUCCESS (api.GenerateSymmetricKey key) = true)
    (hsize : data.length < 4294967296)
    (hout : (api.Decrypt key data iv data.length).2.length = data.length) :
    Crypto.DecryptAes128Cbc api data data.length key iv =
      (Crypto.NT_SUCCESS (api.Decrypt key data iv data.length).1,
        (api.Decrypt key data iv data.length).2) := by
  unfold Crypto.DecryptAes128Cbc Crypto.Detail.BCryptAes128Cbc
  simp only [h1, h2, h3, h4, if_true, Nat.mod_eq_of_lt hsize, List.take_length]
  rw [List.take_of_length_le (Nat.le_of_eq hout), storeBytes_full _ _ hout]

/-- C16: for every archive parsed with a recognised signature and the encrypted
flag set, the buffer of the archive is bytes 0..31 of the file, unchanged,
followed by what `DecryptAes128Cbc` leaves in bytes 32..end when called on
them with the key 62EC7CD79141695E53592ACC10CDC04C and the IV taken from bytes
16..31; when the provider's calls succeed and it stores a decryption as long as
its input, bytes 32..end are exactly that decryption; the file count is read at
byte offset 40 and the entry table from byte offset 48 of this buffer.  For an
archive without the flag the buffer is the file, unchanged. -/
theorem C16_decryption_step (api : Crypto.BCrypt) (file : List u8) (a : FArc)
    (hp : OpenReadDecryptAndParseFArcEntries api file = .ok a) (hs : a.Signature ≠ .Invalid) :
    (a.Flags.Encrypted = true →
      ∃ mem', a.FileContent = some mem' ∧ 32 ≤ file.length ∧
        mem' = file.take 32 ++ (Crypto.DecryptAes128Cbc api (file.drop 32) (file.length - 32)
          fixedKeyBytes ((file.drop 16).take 16)).2 ∧
        mem'.take 32 = file.take 32 ∧ mem'.length = file.length ∧
        (Crypto.NT_SUCCESS api.OpenAlgorithmProvider = true →
          Crypto.NT_SUCCESS api.SetProperty = true →
          Crypto.NT_SUCCESS api.GetProperty = true →
          Crypto.NT_SUCCESS (api.GenerateSymmetricKey fixedKeyBytes) = true →
          file.length < 4294967296 →
          (api.Decrypt fixedKeyBytes (file.drop 32) ((file.drop 16).take 16)
            (file.length - 32)).2.length = file.length - 32 →
          mem'.drop 32 = (api.Decrypt fixedKeyBytes (file.drop 32) ((file.drop 16).take 16)
            (file.length - 32)).2) ∧
        readU32 mem' 40 = .ok a.Entries.length ∧
        ∃ rs rest, (∀ r ∈ rs, r.WellFormed) ∧ mem'.drop 48 = tableBytes rs ++ rest ∧
          a.Entries = rs.map (EntryRecord.parsed true)) ∧
    (a.Flags.Encrypted = false → a.FileContent = some file) := by
  obtain ⟨w, mem', rh, _, hd, ht, hc, _, hf, _⟩ := parse_ok_recognised api file a hp hs
  have hd' := hd
  obtain ⟨hrh, hmem⟩ := decryptStep_ok _ _ _ _ _ _ hd
  obtain ⟨n, hn, hes⟩ := parseTable_ok _ _ _ _ ht
  obtain ⟨rs, rest, hlen, hwf, hdrop, hmap⟩ := (parseEntries_ok_iff _ _ _ _ _).1 hes
  rw [← hf] at hrh hmem hes hmap
  constructor
  · intro henc
    rw [henc, if_pos rfl] at hrh hmem
    subst hrh
    have h32 : 32 ≤ file.length := by
      unfold decryptStep at hd'
      rw [← hf, henc, if_pos rfl] at hd'
      unfold loadBytes at hd'
      by_cases hle : 16 + 16 ≤ file.length
      · omega
      · rw [if_neg hle] at hd'
        cases hd'
    have hform : mem' = file.take 32 ++ (Crypto.DecryptAes128Cbc api (file.drop 32)
        (file.length - 32) fixedKeyBytes ((file.drop 16).take 16)).2 := by
      rw [hmem]
      unfold decryptedContent
      simp only [fixedKey_eq, Crypto.Aes128IVSize]
    have htl : (file.take 32).length = 32 := by
      rw [List.length_take]
      omega
    have hdl : (file.drop 32).length = file.length - 32 := List.length_drop _ _
    refine ⟨mem', hc, h32, hform, ?_, ?_, ?_, ?_, rs, rest, hwf, ?_, ?_⟩
    · rw [hform, List.take_left' htl]
    · rw [hform, List.length_append, htl]
      unfold Crypto.DecryptAes128Cbc
      rw [BCryptAes128Cbc_length, hdl]
      omega
    · intro h1 h2 h3 h4 hsz hout
      rw [hform, List.drop_left' htl, ← hdl]
      rw [← hdl] at hout
      rw [DecryptAes128Cbc_success api (file.drop 32) fixedKeyBytes _ h1 h2 h3 h4
        (by rw [hdl]; omega) hout]
    · have hcount : a.Entries.length = n := by rw [hmap, List.length_map, hlen]
      rw [hcount, ← hn]
    · exact hdrop
    · rw [hmap, henc]
  · intro henc
    rw [henc] at hmem
    simp only [Bool.false_eq_true, if_false] at hmem
    rw [hc, hmem]

/-- C16 at the archive `encryptedArchiveFile`, with a provider that stores its
input unchanged. -/
theorem C16_decryption_step_witness :
    ∃ a, OpenReadDecryptAndParseFArcEntries identityBCrypt encryptedArchiveFile = .ok a ∧
      a.Signature ≠ .Invalid ∧ a.Flags.Encrypted = true ∧
      ∃ mem', a.FileContent = some mem' ∧ mem'.take 32 = encryptedArchiveFile.take 32 ∧
        mem'.drop 32 = (identityBCrypt.Decrypt fixedKeyBytes (encryptedArchiveFile.drop 32)
          ((encryptedArchiveFile.drop 16).take 16) (encryptedArchiveFile.length - 32)).2 ∧
        readU32 mem' 40 = .ok a.Entries.length := by
  refine ⟨_, rfl, by decide, rfl, ?_⟩
  obtain ⟨mem', hc, _, _, ht, _, hdec, hcount, _⟩ :=
    (C16_decryption_step identityBCrypt encryptedArchiveFile _ rfl (by decide)).1 rfl
  exact ⟨mem', hc, ht, hdec rfl rfl rfl rfl (by decide) rfl, hcount⟩

/-! ## Extraction -/

theorem WriteEntireFile_written (fs : FileSystem) (p d : List u8) (n : Nat)
    (x : List u8 × List u8) :
    x ∈ (WriteEntireFile fs p (some d) n).2.toList ↔
      (p ≠ [] ∧ n ≠ 0 ∧ fs.CreateFileW p = true ∧ x = (p, d.take (n % 4294967296))) := by
  unfold WriteEntireFile
  simp only
  by_cases h1 : p = [] ∨ n = 0
  · rw [if_pos h1]
    simp only [Option.toList, List.not_mem_nil, false_iff]
    rintro ⟨hp, hn, _, _⟩
    rcases h1 with h | h
    · exact hp h
    · exact hn h
  · rw [if_neg h1]
    have hp : p ≠ [] := fun h => h1 (Or.inl h)
    have hn : n ≠ 0 := fun h => h1 (Or.inr h)
    by_cases h2 : fs.CreateFileW p = false
    · rw [if_pos h2]
      simp only [Option.toList, List.not_mem_nil, false_iff]
      rintro ⟨_, _, hc, _⟩
      rw [h2] at hc
      cases hc
    · rw [if_neg h2]
      have hc : fs.CreateFileW p = true := by
        cases h : fs.CreateFileW p
        · exact absurd h h2
        · rfl
      simp only [Option.toList, List.mem_singleton]
      constructor
      · intro hx
        exact ⟨hp, hn, hc, hx⟩
      · rintro ⟨_, _, _, hx⟩
        exact hx

/-- The files written by the loop of the extraction are those of the entries
with a non-empty name, a present buffer and a non-zero size whose file can be
created. -/
theorem extractEntries_ok (fs : FileSystem) (dir : List u8) (es : List FArcFileEntry)
    (hfit : ∀ e ∈ es, e.FileName ≠ [] → e.DecompressedFileContent ≠ none →
      dir.length + 1 + (e.FileName.length + 1) ≤ 2048) :
    ∃ files, extractEntries fs dir es = .ok files ∧
      ∀ x, x ∈ files ↔ ∃ e ∈ es, ∃ d, e.FileName ≠ [] ∧ e.DecompressedFileContent = some d ∧
        outputPath dir e ≠ [] ∧ e.UncompressedSize ≠ 0 ∧
        fs.CreateFileW (outputPath dir e) = true ∧
        x = (outputPath dir e, d.take (e.UncompressedSize % 4294967296)) := by
  induction es with
  | nil =>
    refine ⟨[], rfl, ?_⟩
    intro x
    simp
  | cons e es ih =>
    obtain ⟨files, hfiles, hmem⟩ := ih (fun e' he' => hfit e' (List.mem_cons_of_mem _ he'))
    unfold extractEntries
    by_cases hskip : e.FileName = [] ∨ e.DecompressedFileContent = none
    · rw [if_pos hskip]
      refine ⟨files, hfiles, ?_⟩
      intro x
      rw [hmem x]
      constructor
      · rintro ⟨e', he', rest⟩
        exact ⟨e', List.mem_cons_of_mem _ he', rest⟩
      · rintro ⟨e', he', d, hname, hdec, rest⟩
        rcases List.mem_cons.1 he' with heq | hin
        · subst heq
          rcases hskip with h | h
          · exact absurd h hname
          · rw [hdec] at h
            cases h
        · exact ⟨e', hin, d, hname, hdec, rest⟩
    · rw [if_neg hskip]
      have hname : e.FileName ≠ [] := fun h => hskip (Or.inl h)
      have hdec : e.DecompressedFileContent ≠ none := fun h => hskip (Or.inr h)
      have hf := hfit e (List.mem_cons_self _ _) hname hdec
      rw [if_neg (by omega)]
      simp only [hfiles]
      obtain ⟨d, hd⟩ := Option.ne_none_iff_exists'.1 hdec
      refine ⟨_, rfl, ?_⟩
      intro x
      rw [List.mem_append, hmem x, hd, WriteEntireFile_written]
      constructor
      · rintro (⟨hp, hn, hc, hx⟩ | ⟨e', he', rest⟩)
        · exact ⟨e, List.mem_cons_self _ _, d, hname, hd, hp, hn, hc, hx⟩
        · exact ⟨e', List.mem_cons_of_mem _ he', rest⟩
      · rintro ⟨e', he', d', hname', hdec', hp, hn, hc, hx⟩
        rcases List.mem_cons.1 he' with heq | hin
        · subst heq
          rw [hd] at hdec'
          cases hdec'
          exact Or.inl ⟨hp, hn, hc, hx⟩
        · exact Or.inr ⟨e', hin, d', hname', hdec', hp, hn, hc, hx⟩

theorem outputPath_of_no_zero (dir : List u8) (e : FArcFileEntry) (hd : (0 : u8) ∉ dir)
    (hn : (0 : u8) ∉ e.FileName) : outputPath dir e = dir ++ 0x2F :: e.FileName := by
  unfold outputPath
  have hall : ∀ b ∈ dir ++ [0x2F] ++ e.FileName, (b != (0 : u8)) = true := by
    intro b hb
    simp only [List.mem_append, List.mem_singleton] at hb
    have hb0 : b ≠ 0 := by
      rintro rfl
      rcases hb with (h | h) | h
      · exact hd h
      · exact absurd h (by decide)
      · exact hn h
    simpa using hb0
  rw [List.takeWhile_eq_self_iff.2 hall]
  simp

/-- C17 (amended): for every archive with a present buffer and a recognised
signature whose paths fit the path buffer of 2048 bytes, extraction returns
true, and the files it writes are exactly these: for every entry with a
non-empty name, a present decoded buffer and a non-zero UncompressedSize whose
file can be created, a file at the path made of outputDirectory, `/` and the
entry name, holding the first UncompressedSize bytes of the decoded buffer.
Nothing is written for the other entries, an entry of UncompressedSize 0
among them, and a skipped entry does not end the loop. -/
theorem C17_extraction_writes (fs : FileSystem) (a : FArc) (dir : List u8)
    (hc : a.FileContent ≠ none) (hs : a.Signature ≠ .Invalid) (hdir : dir.length < 2048)
    (hfit : ∀ e ∈ a.Entries, e.FileName ≠ [] → e.DecompressedFileContent ≠ none →
      dir.length + 1 + (e.FileName.length + 1) ≤ 2048) :
    (∃ files, ExtractWriteAllFArcEntriesIntoDirectory fs a dir = .ok (true, files) ∧
      ∀ x, x ∈ files ↔ ∃ e ∈ a.Entries, ∃ d, e.FileName ≠ [] ∧
        e.DecompressedFileContent = some d ∧ outputPath dir e ≠ [] ∧
        e.UncompressedSize ≠ 0 ∧ fs.CreateFileW (outputPath dir e) = true ∧
        x = (outputPath dir e, d.take (e.UncompressedSize % 4294967296))) ∧
    (∀ e : FArcFileEntry, (0 : u8) ∉ dir → (0 : u8) ∉ e.FileName →
      outputPath dir e = dir ++ 0x2F :: e.FileName) := by
  refine ⟨?_, fun e hd hn => outputPath_of_no_zero dir e hd hn⟩
  obtain ⟨files, hfiles, hmem⟩ := extractEntries_ok fs dir a.Entries hfit
  refine ⟨files, ?_, hmem⟩
  unfold ExtractWriteAllFArcEntriesIntoDirectory
  rw [if_neg (by
    rintro (h | h)
    · exact hc h
    · exact hs h), if_neg (by omega), hfiles]

/-- C17 (amended) at the decoded archive of `helloArchiveFile` and the
directory `out`: the one file written is `out/a.txt` with the bytes of
`hello`. -/
theorem C17_extraction_writes_witness :
    ∃ a a', OpenReadDecryptAndParseFArcEntries identityBCrypt helloArchiveFile = .ok a ∧
      ReadAndDecompressAllFArcEntries idleZLIB idleZSTD a = .ok (true, a') ∧
      a'.FileContent ≠ none ∧ a'.Signature ≠ .Invalid ∧ outDirectory.length < 2048 ∧
      ExtractWriteAllFArcEntriesIntoDirectory permissiveFileSystem a' outDirectory =
        .ok (true, [([0x6F, 0x75, 0x74, 0x2F, 0x61, 0x2E, 0x74, 0x78, 0x74],
          [0x68, 0x65, 0x6C, 0x6C, 0x6F])]) ∧
      ∃ files, ExtractWriteAllFArcEntriesIntoDirectory permissiveFileSystem a' outDirectory =
          .ok (true, files) ∧
        ∀ x, x ∈ files ↔ ∃ e ∈ a'.Entries, ∃ d, e.FileName ≠ [] ∧
          e.DecompressedFileContent = some d ∧ outputPath outDirectory e ≠ [] ∧
          e.UncompressedSize ≠ 0 ∧
          permissiveFileSystem.CreateFileW (outputPath outDirectory e) = true ∧
          x = (outputPath outDirectory e, d.take (e.UncompressedSize % 4294967296)) := by
  refine ⟨_, _, rfl, rfl, by decide, by decide, by decide, rfl, ?_⟩
  exact (C17_extraction_writes permissiveFileSystem _ outDirectory (by decide) (by decide)
    (by decide) (by decide)).1

/-- C17 (as stated) fails: the entry `a` of `emptyEntryArchiveFile` has a
non-empty name and, after decoding, a present decoded buffer; its
UncompressedSize is 0, and extraction returns true without writing a file for
it. -/
theorem C17_counterexample :
    ∃ a a' e, OpenReadDecryptAndParseFArcEntries identityBCrypt emptyEntryArchiveFile = .ok a ∧
      a.Signature = .FArC ∧
      ReadAndDecompressAllFArcEntries idleZLIB idleZSTD a = .ok (true, a') ∧
      a'.Entries = [e] ∧ e.FileName = [0x61] ∧ e.DecompressedFileContent = some [] ∧
      e.UncompressedSize = 0 ∧
      ExtractWriteAllFArcEntriesIntoDirectory permissiveFileSystem a' outDirectory =
        .ok (true, []) :=
  ⟨_, _, _, rfl, rfl, rfl, rfl, rfl, rfl, rfl, rfl⟩

theorem Extract_no_entries (fs : FileSystem) (a : FArc) (dir : List u8)
    (hc : a.FileContent ≠ none) (hs : a.Signature ≠ .Invalid) (hdir : dir.length < 2048)
    (he : a.Entries = []) :
    ExtractWriteAllFArcEntriesIntoDirectory fs a dir = .ok (true, []) := by
  unfold ExtractWriteAllFArcEntriesIntoDirectory
  rw [if_neg (by
    rintro (h | h)
    · exact hc h
    · exact hs h), if_neg (by omega), he]
  rfl

/-- C18: for every unencrypted buffer of at least 32 bytes with a recognised
tag and a file count of 0, the parser returns an archive without entries,
ReadAndDecompressAllFArcEntries returns true and leaves it unchanged,
ExtractWriteAllFArcEntriesIntoDirectory returns true and writes no file for
every output directory that fits the path buffer, and a run on such a file ends
with the success exit code and no file written. -/
theorem C18_zero_entry_archive (api : Crypto.BCrypt) (zlib : ZLIB) (zstd : ZSTD)
    (fs : FileSystem) (disk : List u8 → List u8) (file : List u8) (w : Nat)
    (hsig : file.take 4 = tagFArC ∨ file.take 4 = tagFARC ∨ file.take 4 = tagFARc)
    (hw : readU32 file 8 = .ok w) (henc : bit w 2 = false) (h32 : 32 ≤ file.length)
    (hcount : readU32 file 24 = .ok 0) :
    ∃ a, OpenReadDecryptAndParseFArcEntries api file = .ok a ∧ a.Entries = [] ∧
      ReadAndDecompressAllFArcEntries zlib zstd a = .ok (true, a) ∧
      (∀ dir, dir.length < 2048 →
        ExtractWriteAllFArcEntriesIntoDirectory fs a dir = .ok (true, [])) ∧
      (∀ prog path rest, disk path = file → (Path.TrimFileExtension path).length < 2048 →
        EntryPoint api zlib zstd fs disk (prog :: path :: rest) =
          .ok (EXIT_WIDEPEEPOHAPPY, [])) := by
  obtain ⟨s, hs, hp⟩ := parse_unencrypted_of_layout api file w hsig hw henc h32 []
    (file.drop 32) (by simp) hcount (by simp [tableBytes])
  have hrad := ReadAndDecompress_no_entries zlib zstd
    { FileContent := some file, FileSize := file.length, Signature := s,
      Flags := FArcFlags.ofU32 w, Entries := [] } file rfl rfl
  have h16 : decide (16 ≤ file.length) = true := by
    simp only [decide_eq_true_eq]
    omega
  simp only [h16] at hrad
  have hext : ∀ dir : List u8, dir.length < 2048 →
      ExtractWriteAllFArcEntriesIntoDirectory fs
        { FileContent := some file, FileSize := file.length, Signature := s,
          Flags := FArcFlags.ofU32 w, Entries := [] } dir = .ok (true, []) :=
    fun dir hdir => Extract_no_entries fs _ dir (by simp) hs hdir rfl
  refine ⟨_, hp, rfl, hrad, hext, ?_⟩
  intro prog path rest hd hlen
  unfold EntryPoint
  simp only [hd, hp, List.map_nil, hrad, hext _ hlen]

/-- C18 at the archive `emptyArchiveFile`, read from the path `x.farc`. -/
theorem C18_zero_entry_archive_witness :
    (emptyArchiveFile.take 4 = tagFArC ∨ emptyArchiveFile.take 4 = tagFARC ∨
      emptyArchiveFile.take 4 = tagFARc) ∧
    readU32 emptyArchiveFile 8 = .ok 0 ∧ bit 0 2 = false ∧ 32 ≤ emptyArchiveFile.length ∧
    readU32 emptyArchiveFile 24 = .ok 0 ∧
    EntryPoint identityBCrypt idleZLIB idleZSTD permissiveFileSystem (fun _ => emptyArchiveFile)
      [[0x78], [0x78, 0x2E, 0x66, 0x61, 0x72, 0x63]] = .ok (EXIT_WIDEPEEPOHAPPY, []) := by
  refine ⟨by decide, rfl, rfl, by decide, rfl, ?_⟩
  obtain ⟨a, _, _, _, _, hrun⟩ := C18_zero_entry_archive identityBCrypt idleZLIB idleZSTD
    permissiveFileSystem (fun _ => emptyArchiveFile) emptyArchiveFile 0 (by decide) rfl rfl
    (by decide) rfl
  exact hrun [0x78] [0x78, 0x2E, 0x66, 0x61, 0x72, 0x63] [] rfl (by decide)

/-! ## The output directory -/

theorem find_last_of_eq_none_iff (s chars : List u8) :
    Path.find_last_of s chars = none ↔ ∀ x ∈ s, x ∉ chars := by
  induction s with
  | nil => simp [Path.find_last_of]
  | cons c rest ih =>
    unfold Path.find_last_of
    cases hr : Path.find_last_of rest chars with
    | some j =>
      simp only [false_iff, reduceCtorEq]
      intro hall
      have := ih.2 (fun x hx => hall x (List.mem_cons_of_mem _ hx))
      rw [hr] at this
      cases this
    | none =>
      have hrest := ih.1 hr
      by_cases hc : c ∈ chars
      · simp only [hc, if_true, false_iff, reduceCtorEq]
        intro hall
        exact hall c (List.mem_cons_self _ _) hc
      · simp only [hc, if_false, true_iff]
        intro x hx
        rcases List.mem_cons.1 hx with e | e
        · rw [e]
          exact hc
        · exact hrest x e

theorem find_last_of_append (pre suf chars : List u8) (c : u8) (hc : c ∈ chars)
    (hsuf : ∀ x ∈ suf, x ∉ chars) :
    Path.find_last_of (pre ++ c :: suf) chars = some pre.length := by
  induction pre with
  | nil =>
    unfold Path.find_last_of
    rw [List.nil_append]
    simp only [(find_last_of_eq_none_iff suf chars).2 hsuf, hc, if_true]
    rfl
  | cons p pre ih =>
    rw [List.cons_append]
    unfold Path.find_last_of
    rw [ih]
    rfl

theorem find_last_of_some (s chars : List u8) (i : Nat)
    (h : Path.find_last_of s chars = some i) :
    ∃ pre c suf, s = pre ++ c :: suf ∧ c ∈ chars ∧ (∀ x ∈ suf, x ∉ chars) ∧ i = pre.length := by
  induction s generalizing i with
  | nil =>
    unfold Path.find_last_of at h
    cases h
  | cons c rest ih =>
    unfold Path.find_last_of at h
    cases hr : Path.find_last_of rest chars with
    | some j =>
      rw [hr] at h
      simp only [Option.some.injEq] at h
      obtain ⟨pre, c', suf, hs, hc', hsuf, hj⟩ := ih j hr
      exact ⟨c :: pre, c', suf, by rw [hs]; rfl, hc', hsuf, by rw [← h, hj]; rfl⟩
    | none =>
      rw [hr] at h
      simp only at h
      by_cases hc : c ∈ chars
      · rw [if_pos hc] at h
        simp only [Option.some.injEq] at h
        exact ⟨[], c, rest, rfl, hc, (find_last_of_eq_none_iff rest chars).1 hr, h.symm⟩
      · rw [if_neg hc] at h
        cases h

theorem take_sub_drop (p : List u8) (i : Nat) :
    p.take (p.length - (p.drop i).length) ++ p.drop i = p := by
  rw [List.length_drop]
  by_cases h : i ≤ p.length
  · have e : p.length - (p.length - i) = i := by omega
    rw [e, List.take_append_drop]
  · have e : p.length - (p.length - i) = p.length := by omega
    rw [e, List.take_length, List.drop_eq_nil_of_le (by omega), List.append_nil]

theorem get?_append_cons_length (pre suf : List u8) (c : u8) :
    (pre ++ c :: suf).get? pre.length = some c := by
  induction pre with
  | nil => rfl
  | cons p pre ih => exact ih

theorem GetFileExtension_of_last_dot (pre suf : List u8) (h1 : (0x2E : u8) ∉ suf)
    (h2 : (0x2F : u8) ∉ suf) (h3 : (0x5C : u8) ∉ suf) :
    Path.GetFileExtension (pre ++ 0x2E :: suf) = 0x2E :: suf := by
  have hsuf : ∀ x ∈ suf, x ∉ ([0x2E, 0x2F, 0x5C] : List u8) := by
    intro x hx hmem
    simp only [List.mem_cons, List.mem_singleton, List.not_mem_nil, or_false] at hmem
    rcases hmem with e | e | e
    · exact h1 (e ▸ hx)
    · exact h2 (e ▸ hx)
    · exact h3 (e ▸ hx)
  unfold Path.GetFileExtension
  rw [find_last_of_append pre suf _ 0x2E (by decide) hsuf]
  simp only [get?_append_cons_length, if_true]
  exact List.drop_left _ _

/-- C19: for every path, TrimFileExtension followed by GetFileExtension gives
the path back; when the path has a last `.` that comes after every `/` and
`\`, that is when it reads pre ++ `.` ++ suf with none of `.`, `/`, `\` in
suf, TrimFileExtension returns pre, the path without the suffix that starts at
that `.`; and in every other case TrimFileExtension returns the path
unchanged. -/
theorem C19_trim_file_extension (p : List u8) :
    Path.TrimFileExtension p ++ Path.GetFileExtension p = p ∧
    (∀ pre suf : List u8, p = pre ++ 0x2E :: suf → (0x2E : u8) ∉ suf → (0x2F : u8) ∉ suf →
      (0x5C : u8) ∉ suf →
      Path.TrimFileExtension p = pre ∧ Path.GetFileExtension p = 0x2E :: suf) ∧
    ((¬ ∃ pre suf : List u8, p = pre ++ 0x2E :: suf ∧ (0x2E : u8) ∉ suf ∧ (0x2F : u8) ∉ suf ∧
      (0x5C : u8) ∉ suf) → Path.TrimFileExtension p = p) := by
  refine ⟨?_, ?_, ?_⟩
  · unfold Path.TrimFileExtension
    have hcases : Path.GetFileExtension p = [] ∨ ∃ i, Path.GetFileExtension p = p.drop i := by
      unfold Path.GetFileExtension
      split
      · split
        · exact Or.inr ⟨_, rfl⟩
        · exact Or.inl rfl
      · exact Or.inl rfl
    rcases hcases with h | ⟨i, h⟩
    · rw [h]
      simp
    · rw [h]
      exact take_sub_drop p i
  · intro pre suf hp h1 h2 h3
    have hext := GetFileExtension_of_last_dot pre suf h1 h2 h3
    rw [← hp] at hext
    refine ⟨?_, hext⟩
    unfold Path.TrimFileExtension
    rw [hext, hp]
    simp
  · intro hno
    have hext : Path.GetFileExtension p = [] := by
      unfold Path.GetFileExtension
      split
      · rename_i i hi
        split
        · rename_i hdot
          exfalso
          obtain ⟨pre, c, suf, hs, _, hsuf, hlen⟩ := find_last_of_some p _ i hi
          have hc : c = 0x2E := by
            rw [hs, hlen, get?_append_cons_length] at hdot
            exact Option.some.inj hdot
          apply hno
          refine ⟨pre, suf, by rw [hs, hc], ?_, ?_, ?_⟩
          · exact fun h => hsuf _ h (by decide)
          · exact fun h => hsuf _ h (by decide)
          · exact fun h => hsuf _ h (by decide)
        · rfl
      · rfl
    unfold Path.TrimFileExtension
    rw [hext]
    simp

/-- C19 at the paths `x.farc`, whose extension is removed, and `a.b/c`, which
is left unchanged. -/
theorem C19_trim_file_extension_witness :
    Path.TrimFileExtension [0x78, 0x2E, 0x66, 0x61, 0x72, 0x63] = [0x78] ∧
    Path.TrimFileExtension [0x61, 0x2E, 0x62, 0x2F, 0x63] = [0x61, 0x2E, 0x62, 0x2F, 0x63] ∧
    Path.TrimFileExtension [0x61, 0x2E, 0x62, 0x2F, 0x63] ++
      Path.GetFileExtension [0x61, 0x2E, 0x62, 0x2F, 0x63] = [0x61, 0x2E, 0x62, 0x2F, 0x63] :=
  ⟨((C19_trim_file_extension [0x78, 0x2E, 0x66, 0x61, 0x72, 0x63]).2.1 [0x78]
      [0x66, 0x61, 0x72, 0x63] rfl (by decide) (by decide) (by decide)).1,
    by decide, (C19_trim_file_extension [0x61, 0x2E, 0x62, 0x2F, 0x63]).1⟩

/-! ## The size handed to the codec -/

/-- C20, the code at a failing input: the gzip entry of `splitGzipArchiveFile`
has compressed size 20 and a chunk table of 8 bytes (the lead value and one
chunk-size value), so 12 bytes of payload start at byte 58.  The function
computes 12 in `compressedSizeWithoutChunkTable`, and hands the codec the input
at byte 58, which starts with `0x99`, with a size of 20. -/
theorem C20_codec_gets_compressed_size :
    ∃ a a' e, OpenReadDecryptAndParseFArcEntries identityBCrypt splitGzipArchiveFile = .ok a ∧
      a.FileContent = some splitGzipArchiveFile ∧ a.Entries = [e] ∧
      e.Flags.GZipCompressed = true ∧ e.Flags.SplitChunks = true ∧ e.CompressedSize = 20 ∧
      skipChunkTable splitGzipArchiveFile e = (1, .ok 58) ∧
      compressedSizeWithoutChunkTable e 58 = 12 ∧
      ReadAndDecompressAllFArcEntries recordingZLIB idleZSTD a = .ok (true, a') ∧
      a'.Entries.map (fun x => x.DecompressedFileContent) = [some [0, 0, 0, 20, 0x99]] :=
  ⟨_, _, _, rfl, rfl, rfl, rfl, rfl, rfl, rfl, rfl, rfl, rfl⟩

/-! ## The length of the chunk table -/

theorem chunkSizeAt_of_load (mem : List u8) (p c : Nat) (h : loadU32 mem p = .ok c) :
    chunkSizeAt mem p = c := by
  unfold chunkSizeAt
  rw [h]

theorem chunkSum_zero (mem : List u8) (p : Nat) : chunkSum mem p 0 = 0 := rfl

theorem chunkSum_succ (mem : List u8) (p k : Nat) :
    chunkSum mem p (k + 1) = chunkSizeAt mem p + 4 + chunkSum mem (p + 4) k := by
  unfold chunkSum
  rw [List.range_succ_eq_map, List.map_cons, List.sum_cons, List.map_map]
  have hf : ((fun i => chunkSizeAt mem (p + 4 * i) + 4) ∘ Nat.succ) =
      fun i => chunkSizeAt mem (p + 4 + 4 * i) + 4 := by
    funext i
    have e : p + 4 * Nat.succ i = p + 4 + 4 * i := by omega
    simp only [Function.comp, e]
  rw [hf]
  rfl

theorem subU32_cast (a b : Nat) : ((subU32 a b : Nat) : Int) = ((a : Int) - b) % 4294967296 := by
  unfold subU32
  omega

/-- The scan, when it is left without a read outside the buffer, has loaded `k`
consecutive values with `k` at least 1; the remaining size stayed above 4 after
each of the first `k - 1` values, and after the last one it is at most 4 unless
the limit was reached. -/
theorem scanChunkTable_spec (mem : List u8) (limit : Nat) :
    ∀ (p r k rh rem : Nat), 1 ≤ limit →
      scanChunkTable mem limit p r = (k, .ok (rh, rem)) →
      1 ≤ k ∧ (∀ i, i < k → ∃ c, loadU32 mem (p + 4 * i) = .ok c) ∧
      (∀ j, 1 ≤ j → j < k → 4 < ((r : Int) - (chunkSum mem p j : Nat)) % 4294967296) ∧
      (((r : Int) - (chunkSum mem p k : Nat)) % 4294967296 ≤ 4 ∨ k = limit) := by
  induction limit with
  | zero =>
    intro p r k rh rem h1 _
    omega
  | succ n ih =>
    intro p r k rh rem _ h
    unfold scanChunkTable at h
    split at h
    · cases h
    · rename_i c hc
      have hcs := chunkSizeAt_of_load mem p c hc
      have hcast := subU32_cast r (c + 4)
      have hsum1 : chunkSum mem p 1 = c + 4 := by
        rw [chunkSum_succ, chunkSum_zero, hcs]
      simp only at h
      split at h
      · rename_i hle
        simp only [Prod.mk.injEq, Except.ok.injEq] at h
        obtain ⟨hk, _, _⟩ := h
        subst hk
        refine ⟨Nat.le_refl _, ?_, ?_, ?_⟩
        · intro i hi
          have : i = 0 := by omega
          subst this
          exact ⟨c, hc⟩
        · intro j h1 h2
          omega
        · left
          rw [hsum1]
          omega
      · rename_i hgt
        cases n with
        | zero =>
          have h0 : scanChunkTable mem 0 (p + 4) (subU32 r (c + 4)) =
              (0, .ok (p + 4, subU32 r (c + 4))) := rfl
          rw [h0] at h
          simp only [Prod.mk.injEq, Except.ok.injEq] at h
          obtain ⟨hk, _, _⟩ := h
          have hk1 : k = 1 := by omega
          subst hk1
          refine ⟨Nat.le_refl _, ?_, ?_, Or.inr rfl⟩
          · intro i hi
            have : i = 0 := by omega
            subst this
            exact ⟨c, hc⟩
          · intro j h1 h2
            omega
        | succ m =>
          generalize hsc : scanChunkTable mem (m + 1) (p + 4) (subU32 r (c + 4)) = sc at h
          obtain ⟨k', res⟩ := sc
          simp only [Prod.mk.injEq] at h
          obtain ⟨hk, hres⟩ := h
          subst hk hres
          obtain ⟨ih1, ih2, ih3, ih4⟩ := ih (p + 4) (subU32 r (c + 4)) k' rh rem (by omega) hsc
          refine ⟨by omega, ?_, ?_, ?_⟩
          · intro i hi
            cases i with
            | zero => exact ⟨c, hc⟩
            | succ i =>
              obtain ⟨c', hc'⟩ := ih2 i (by omega)
              have e : p + 4 * (i + 1) = p + 4 + 4 * i := by omega
              rw [e]
              exact ⟨c', hc'⟩
          · intro j h1 h2
            cases j with
            | zero => omega
            | succ j =>
              rw [chunkSum_succ, hcs]
              by_cases hj : j = 0
              · subst hj
                rw [chunkSum_zero]
                omega
              · have := ih3 j (by omega) (by omega)
                omega
          · rcases ih4 with h4 | h4
            · left
              rw [chunkSum_succ, hcs]
              omega
            · right
              omega

theorem loadU32_of_le (mem : List u8) (p : Nat) (h : p + 4 ≤ mem.length) :
    ∃ v, loadU32 mem p = .ok v := by
  have hl : 4 ≤ (mem.drop p).length := by
    rw [List.length_drop]
    omega
  obtain ⟨b0, b1, b2, b3, rest, hd⟩ := exists_cons4 _ hl
  unfold loadU32
  rw [hd]
  exact ⟨_, rfl⟩

theorem scanChunkTable_total (mem : List u8) (limit : Nat) :
    ∀ p r, p + 4 * limit ≤ mem.length →
      ∃ k rh rem, scanChunkTable mem limit p r = (k, .ok (rh, rem)) := by
  induction limit with
  | zero =>
    intro p r _
    exact ⟨0, p, r, rfl⟩
  | succ n ih =>
    intro p r h
    obtain ⟨c, hc⟩ := loadU32_of_le mem p (by omega)
    unfold scanChunkTable
    rw [hc]
    simp only
    split
    · exact ⟨_, _, _, rfl⟩
    · obtain ⟨k, rh, rem, hsc⟩ := ih (p + 4) (subU32 r (c + 4)) (by omega)
      rw [hsc]
      exact ⟨_, _, _, rfl⟩

/-- C21: for every splitChunks entry whose scan is left without a read outside
the buffer, the scan has consumed the 4-byte lead value and k consecutive
4-byte chunk-size values, where k is at least 1 and at most 16384, the
remaining size (CompressedSize - 4 - sum of (c_i + 4)) mod 2^32 is above 4
after each of the first k - 1 values, and it is at most 4 after the k-th value
unless k is 16384; the read head then stands at offset + 4 + 4k.  The scan is
left in this way whenever the 4 + 4 * 16384 bytes from the entry's offset lie
inside the buffer. -/
theorem C21_chunk_table_length (mem : List u8) (e : FArcFileEntry)
    (hs : e.Flags.SplitChunks = true) :
    (∀ k rh, skipChunkTable mem e = (k, .ok rh) →
      1 ≤ k ∧ k ≤ 16384 ∧ rh = e.Offset + 4 + 4 * k ∧
      (∃ lead, loadU32 mem e.Offset = .ok lead) ∧
      (∀ i, i < k → ∃ c, loadU32 mem (e.Offset + 4 + 4 * i) = .ok c) ∧
      (∀ j, 1 ≤ j → j < k → 4 < remainingAfter mem e j) ∧
      (remainingAfter mem e k ≤ 4 ∨ k = 16384)) ∧
    (e.Offset + 4 + 4 * 16384 ≤ mem.length → ∃ k rh, skipChunkTable mem e = (k, .ok rh)) := by
  have hcast := subU32_cast e.CompressedSize 4
  constructor
  · intro k rh h
    unfold skipChunkTable at h
    rw [if_pos hs] at h
    split at h
    · cases h
    · rename_i lead hlead
      have hcount := scanChunkTable_count mem 0x4000 (e.Offset + 4) (subU32 e.CompressedSize 4)
      have hspec := scanChunkTable_spec mem 0x4000 (e.Offset + 4) (subU32 e.CompressedSize 4)
      generalize scanChunkTable mem 0x4000 (e.Offset + 4) (subU32 e.CompressedSize 4) = sc
        at h hcount hspec
      obtain ⟨k', res⟩ := sc
      cases res with
      | error f => cases h
      | ok pr =>
        obtain ⟨rh', rem'⟩ := pr
        simp only [Prod.mk.injEq, Except.ok.injEq] at h
        obtain ⟨hk, hrh⟩ := h
        subst hk hrh
        obtain ⟨h1, h2, h3, h4⟩ := hspec k' rh' rem' (by decide) rfl
        refine ⟨h1, hcount.1, hcount.2 rh' rem' rfl, ⟨lead, hlead⟩, h2, ?_, ?_⟩
        · intro j hj1 hj2
          have := h3 j hj1 hj2
          unfold remainingAfter
          omega
        · rcases h4 with h4 | h4
          · left
            unfold remainingAfter
            omega
          · right
            exact h4
  · intro hlen
    obtain ⟨lead, hlead⟩ := loadU32_of_le mem e.Offset (by omega)
    obtain ⟨k, rh, rem, hsc⟩ := scanChunkTable_total mem 0x4000 (e.Offset + 4)
      (subU32 e.CompressedSize 4) (by omega)
    unfold skipChunkTable
    rw [if_pos hs, hlead]
    simp only [hsc]
    exact ⟨_, _, rfl⟩

/-- C21 at the entry of `splitGzipArchiveFile`: one chunk-size value is read,
the remaining size after it is 0, and the read head stands at 50 + 4 + 4. -/
theorem C21_chunk_table_length_witness :
    splitGzipEntry.Flags.SplitChunks = true ∧
    skipChunkTable splitGzipArchiveFile splitGzipEntry = (1, .ok 58) ∧
    58 = splitGzipEntry.Offset + 4 + 4 * 1 ∧
    (remainingAfter splitGzipArchiveFile splitGzipEntry 1 ≤ 4 ∨ 1 = 16384) := by
  have h := (C21_chunk_table_length splitGzipArchiveFile splitGzipEntry rfl).1 1 58 rfl
  exact ⟨rfl, rfl, h.2.2.1, h.2.2.2.2.2.2⟩

/-! ## Byte order -/

theorem loadU32_of_drop_eq (mem : List u8) (p : Nat) (b0 b1 b2 b3 : u8) (rest : List u8)
    (h : mem.drop p = b0 :: b1 :: b2 :: b3 :: rest) :
    loadU32 mem p = .ok (b0.val + 256 * b1.val + 65536 * b2.val + 16777216 * b3.val) := by
  unfold loadU32
  rw [h]

/-- C22 (amended): the parser reads every 32-bit field through `readU32`, which
takes the four bytes b0 b1 b2 b3 at a position as the big-endian value
b0*2^24 + b1*2^16 + b2*2^8 + b3; the scan of the chunk table loads the lead
value and the chunk-size values without a byte swap, so on the little-endian
host the same four bytes are the value b0 + b1*2^8 + b2*2^16 + b3*2^24, and
that value plus 4 is what an iteration of the scan takes off the remaining-size
counter. -/
theorem C22_byte_order (mem : List u8) (p : Nat) (b0 b1 b2 b3 : u8) (rest : List u8)
    (h : mem.drop p = b0 :: b1 :: b2 :: b3 :: rest) :
    readU32 mem p = .ok (b0.val * 2 ^ 24 + b1.val * 2 ^ 16 + b2.val * 2 ^ 8 + b3.val) ∧
    loadU32 mem p = .ok (b0.val + b1.val * 2 ^ 8 + b2.val * 2 ^ 16 + b3.val * 2 ^ 24) ∧
    ∀ limit r,
      scanChunkTable mem (limit + 1) p r =
        if subU32 r (b0.val + b1.val * 2 ^ 8 + b2.val * 2 ^ 16 + b3.val * 2 ^ 24 + 4) ≤ 4 then
          (1, .ok (p + 4,
            subU32 r (b0.val + b1.val * 2 ^ 8 + b2.val * 2 ^ 16 + b3.val * 2 ^ 24 + 4)))
        else
          ((scanChunkTable mem limit (p + 4)
              (subU32 r (b0.val + b1.val * 2 ^ 8 + b2.val * 2 ^ 16 + b3.val * 2 ^ 24 + 4))).1 + 1,
            (scanChunkTable mem limit (p + 4)
              (subU32 r (b0.val + b1.val * 2 ^ 8 + b2.val * 2 ^ 16 + b3.val * 2 ^ 24 + 4))).2) := by
  have hle : b0.val + 256 * b1.val + 65536 * b2.val + 16777216 * b3.val =
      b0.val + b1.val * 2 ^ 8 + b2.val * 2 ^ 16 + b3.val * 2 ^ 24 := by
    norm_num
    omega
  have hbe : be32 b0 b1 b2 b3 = b0.val * 2 ^ 24 + b1.val * 2 ^ 16 + b2.val * 2 ^ 8 + b3.val := by
    unfold be32
    norm_num
  have hload := loadU32_of_drop_eq mem p b0 b1 b2 b3 rest h
  rw [hle] at hload
  refine ⟨?_, hload, ?_⟩
  · rw [← hbe]
    exact (readU32_ok_iff _ _ _).2 ⟨b0, b1, b2, b3, rest, h, rfl⟩
  · intro limit r
    conv_lhs => unfold scanChunkTable
    rw [hload]

/-- C22 (amended) at byte 54 of `splitGzipArchiveFile`, where the bytes
`0C 00 00 00` are stored. -/
theorem C22_byte_order_witness :
    splitGzipArchiveFile.drop 54 = 0x0C :: 0 :: 0 :: 0 :: (0x99 :: List.replicate 11 0) ∧
    readU32 splitGzipArchiveFile 54 = .ok 201326592 ∧
    loadU32 splitGzipArchiveFile 54 = .ok 12 :=
  ⟨rfl,
    (C22_byte_order splitGzipArchiveFile 54 0x0C 0 0 0 (0x99 :: List.replicate 11 0) rfl).1,
    (C22_byte_order splitGzipArchiveFile 54 0x0C 0 0 0 (0x99 :: List.replicate 11 0) rfl).2.1⟩

/-- C22 (as stated) fails: in `splitGzipArchiveFile` the chunk size is stored as
the bytes `0C 00 00 00`; the scan takes 12 + 4 off the remaining size 16 and
is left with 0 after this one value, whereas the big-endian value of these
bytes, 201326592, would leave 4093640716. -/
theorem C22_counterexample :
    (splitGzipArchiveFile.drop 54).take 4 = [0x0C, 0, 0, 0] ∧
    be32 0x0C 0 0 0 = 201326592 ∧
    subU32 splitGzipEntry.CompressedSize 4 = 16 ∧
    scanChunkTable splitGzipArchiveFile 0x4000 (splitGzipEntry.Offset + 4)
      (subU32 splitGzipEntry.CompressedSize 4) = (1, .ok (58, 0)) ∧
    subU32 16 (12 + 4) = 0 ∧ subU32 16 (be32 0x0C 0 0 0 + 4) = 4093640716 :=
  ⟨rfl, rfl, rfl, rfl, rfl, rfl⟩

/-! ## What decoding leaves unchanged -/

theorem forall₂_length {α β : Type} (R : α → β → Prop) (xs : List α) (ys : List β)
    (h : List.Forall₂ R xs ys) : ys.length = xs.length := by
  induction h with
  | nil => rfl
  | cons _ _ ih => simp [ih]

/-- C23: whenever ReadAndDecompressAllFArcEntries returns, with true or with
false, the archive after the call has the same buffer, size, signature and
flags as before and as many entries, and the entry at each position has the
same name, Offset, CompressedSize, UncompressedSize and flags as the entry at
that position before the call. -/
theorem C23_decoding_frame (zlib : ZLIB) (zstd : ZSTD) (a a' : FArc) (r : Bool)
    (h : ReadAndDecompressAllFArcEntries zlib zstd a = .ok (r, a')) :
    a'.FileContent = a.FileContent ∧ a'.FileSize = a.FileSize ∧ a'.Signature = a.Signature ∧
    a'.Flags = a.Flags ∧ a'.Entries.length = a.Entries.length ∧
    ∀ (i : Nat) (e : FArcFileEntry), a.Entries[i]? = some e →
      ∃ e', a'.Entries[i]? = some e' ∧ e'.FileName = e.FileName ∧ e'.Offset = e.Offset ∧
        e'.CompressedSize = e.CompressedSize ∧ e'.UncompressedSize = e.UncompressedSize ∧
        e'.Flags = e.Flags := by
  rcases ReadAndDecompress_ok zlib zstd a a' r h with ⟨_, ha', _⟩ | ⟨_, mem, es', _, _, hes, ha'⟩
  · subst ha'
    refine ⟨rfl, rfl, rfl, rfl, rfl, ?_⟩
    intro i e he
    exact ⟨e, he, rfl, rfl, rfl, rfl, rfl⟩
  · subst ha'
    have hf := decodeEntries_ok zlib zstd mem _ _ hes
    refine ⟨rfl, rfl, rfl, rfl, forall₂_length _ _ _ hf, ?_⟩
    intro i e he
    obtain ⟨e', he', hdec⟩ := forall₂_getElem? _ _ _ hf i e he
    obtain ⟨d, rfl, _⟩ := decodeEntry_length zlib zstd mem e e' hdec
    exact ⟨_, he', rfl, rfl, rfl, rfl, rfl⟩

/-- C23 at the archive parsed from `helloArchiveFile`: decoding changes the
decoded buffer of its entry and nothing else. -/
theorem C23_decoding_frame_witness :
    OpenReadDecryptAndParseFArcEntries identityBCrypt helloArchiveFile = .ok helloArchive ∧
    ReadAndDecompressAllFArcEntries idleZLIB idleZSTD helloArchive =
      .ok (true, helloDecodedArchive) ∧
    helloDecodedArchive.FileContent = helloArchive.FileContent ∧
    helloDecodedArchive.FileSize = helloArchive.FileSize ∧
    helloDecodedArchive.Signature = helloArchive.Signature ∧
    helloDecodedArchive.Flags = helloArchive.Flags ∧
    helloDecodedArchive.Entries.length = helloArchive.Entries.length ∧
    helloDecodedArchive ≠ helloArchive := by
  have hr : ReadAndDecompressAllFArcEntries idleZLIB idleZSTD helloArchive =
      .ok (true, helloDecodedArchive) := rfl
  obtain ⟨h1, h2, h3, h4, h5, _⟩ :=
    C23_decoding_frame idleZLIB idleZSTD helloArchive helloDecodedArchive true hr
  exact ⟨rfl, hr, h1, h2, h3, h4, h5, by decide⟩

end FArcExtractor
